import Mathlib

/-!
Verification of the natural-language product-search pipeline
(`src/search_rag.py`, `src/search_middleware.py`, `src/openai_middleware.py`,
`src/search.py`, `src/app.py`) against its specification.

Strings are modelled as `List Char` (the code points of the Python `str`),
rationals stand for the exact values of the Python floats that flow through
the confidence gate, and the external collaborators (the search index and
the language-model service) are modelled as explicit inputs/oracles.
-/

namespace NLSearch

/-- Character strings, the model of Python `str`. -/
abbrev Str := List Char

/-- Definition `isPre p l` : does `l` start with `p`?  Model of Python `str.startswith`. -/
def isPre : Str → Str → Bool
  | [], _ => true
  | _ :: _, [] => false
  | a :: as, b :: bs => a = b && isPre as bs

/-- Definition `isSubstr p l` : does `p` occur contiguously inside `l`?
Model of the Python `in` operator on strings. -/
def isSubstr (p : Str) : Str → Bool
  | [] => isPre p []
  | c :: rest => isPre p (c :: rest) || isSubstr p rest

/-- The Python whitespace characters removed by `str.strip()` and matched
by the regex class. -/
def isWs (c : Char) : Bool :=
  c = ' ' || c = '\t' || c = '\n' || c = '\r' || c = '\x0b' || c = '\x0c'

/-- Model of Python `str.strip()`: drop whitespace from both ends. -/
def trimStr (l : Str) : Str :=
  ((l.dropWhile isWs).reverse.dropWhile isWs).reverse

/-- Fuelled splitter: `splitSepF sep fuel l` splits `l` on every
non-overlapping occurrence of `sep`, scanning left to right, as long as
the fuel covers the length of `l` (the wrapper below always supplies
enough).  Structural recursion on the fuel keeps it kernel-computable. -/
def splitSepF (sep : Str) : Nat → Str → List Str
  | _, [] => [[]]
  | 0, l => [l]
  | fuel + 1, c :: rest =>
    if (!sep.isEmpty) && isPre sep (c :: rest) then
      [] :: splitSepF sep fuel (rest.drop (sep.length - 1))
    else
      match splitSepF sep fuel rest with
      | [] => [[c]]
      | p :: ps => (c :: p) :: ps

/-- Definition `splitSep sep l` : split `l` on every non-overlapping occurrence of
`sep`, scanning left to right.  Model of Python `str.split(sep)` for a
non-empty separator (`splitSep sep [] = [[]]`, exactly as in Python). -/
def splitSep (sep : Str) (l : Str) : List Str :=
  splitSepF sep l.length l

/-- Definition `joinSep sep parts` : interleave `sep` between the parts.
Model of Python `sep.join(parts)`. -/
def joinSep (sep : Str) : List Str → Str
  | [] => []
  | [p] => p
  | p :: q :: ps => p ++ sep ++ joinSep sep (q :: ps)

/-- Model of Python `str.lower()` (per-code-point lowering). -/
def toLowerStr (l : Str) : Str := l.map Char.toLower

/-! ## Limit extraction (`_extract_limit_from_query`)

`src/search.py` lines 109-144 and `src/search_rag.py` lines 232-259 contain
the identical function: four regex patterns tried in order on the
lowercased, stripped query; the first pattern whose captured integer lies
in `[1,100]` wins. -/

/-- Value of Python `int()` on a string of ASCII digits. -/
def digitsToNat (ds : Str) : Nat :=
  ds.foldl (fun n c => n * 10 + (c.toNat - 48)) 0

/-- Regex pattern `^(\d+)\s+(?:most|least|top|best|worst|cheapest|expensive)`:
leading digit run, at least one whitespace, then one of the keywords.
Greedy `\d+`/`\s+` cannot backtrack usefully here because digits are not
whitespace and the keywords do not start with whitespace. -/
def matchNumKeyword (l : Str) : Option Nat :=
  let ds := l.takeWhile Char.isDigit
  if ds.isEmpty then none
  else
    let r1 := l.dropWhile Char.isDigit
    let ws := r1.takeWhile isWs
    if ws.isEmpty then none
    else
      let r2 := r1.dropWhile isWs
      let kws := ["most", "least", "top", "best", "worst", "cheapest",
        "expensive"]
      if kws.any (fun k => isPre k.data r2) then some (digitsToNat ds)
      else none

/-- Regex pattern `^(\d+)\s+\w+`: leading digit run, whitespace, then at
least one word character. -/
def matchNumWord (l : Str) : Option Nat :=
  let ds := l.takeWhile Char.isDigit
  if ds.isEmpty then none
  else
    let r1 := l.dropWhile Char.isDigit
    let ws := r1.takeWhile isWs
    if ws.isEmpty then none
    else
      let r2 := r1.dropWhile isWs
      match r2 with
      | [] => none
      | c :: _ =>
        if c.isAlphanum || c = '_' then some (digitsToNat ds) else none

/-- Try the pattern `kw\s+(\d+)` at the start of `l`. -/
def matchKwNumHere (kw : Str) (l : Str) : Option Nat :=
  if isPre kw l then
    let r1 := l.drop kw.length
    let ws := r1.takeWhile isWs
    if ws.isEmpty then none
    else
      let ds := (r1.dropWhile isWs).takeWhile Char.isDigit
      if ds.isEmpty then none else some (digitsToNat ds)
  else none

/-- Model of `re.search(kw + r'\s+(\d+)', l)`: leftmost position at which
the whole pattern matches, returning the captured integer. -/
def searchKwNum (kw : Str) : Str → Option Nat
  | [] => none
  | c :: rest =>
    match matchKwNumHere kw (c :: rest) with
    | some n => some n
    | none => searchKwNum kw rest

/-- Keep a captured value only when it lies in `[1,100]`
(the sanity check `if 1 <= limit <= 100` in the source; an out-of-range
capture lets the loop move on to the next pattern). -/
def limitInRange (r : Option Nat) : Option Nat :=
  match r with
  | some n => if 1 ≤ n ∧ n ≤ 100 then some n else none
  | none => none

/-- Definition `NaturalLanguageSearch._extract_limit_from_query` /
`RAGNaturalLanguageSearch._extract_limit_from_query` (identical code):
lowercase and strip the query, then try the four patterns in order. -/
def extract_limit_from_query (query : Str) : Option Nat :=
  let q := trimStr (toLowerStr query)
  (limitInRange (matchNumKeyword q)).orElse fun _ =>
    (limitInRange (searchKwNum "top".data q)).orElse fun _ =>
      (limitInRange (searchKwNum "first".data q)).orElse fun _ =>
        limitInRange (matchNumWord q)

/-! ## Category-value escaping

`src/search_rag.py` line 578: `category.replace("\x60", "\\\x60")`;
`src/openai_middleware.py` line 414: `detected_category.replace("\x60", "")`. -/

/-- Definition `category.replace(backtick, backslash-backtick)` from
`RAGNaturalLanguageSearch._search_with_category_filter`. -/
def escapeBackticks : Str → Str
  | [] => []
  | c :: cs => if c = '`' then '\\' :: '`' :: escapeBackticks cs
    else c :: escapeBackticks cs

/-- Definition `detected_category.replace(backtick, "")` from
`openai_middleware.apply_category_filter`. -/
def stripBackticks (l : Str) : Str := l.filter (fun c => c ≠ '`')

/-- Scan with the previous character: every backtick must be immediately
preceded by a backslash. -/
def noUnescB (prev : Option Char) : Str → Bool
  | [] => true
  | c :: rest =>
    if c = '`' then decide (prev = some '\\') && noUnescB (some c) rest
    else noUnescB (some c) rest

/-- Every backtick in the string is immediately preceded by a backslash:
the string contains no unescaped backtick. -/
def noUnescapedBacktick (l : Str) : Bool := noUnescB none l

/-! ## Retrieval-request construction and the classification flag

The three context-retrieval request builders of the pipeline:
`MiddlewareSearch._retrieval_search` (`src/search_middleware.py` 172-206),
`retrieve_products` (`src/openai_middleware.py` 141-190) and
`RAGNaturalLanguageSearch._retrieve_semantic_results`
(`src/search_rag.py` 261-315).  Each builds a parameter dictionary for the
index's search call; the `nl_query` entry is the classification flag: the
index invokes the registered natural-language model on the request exactly
when that flag is enabled, so a disabled flag is what prevents a reentrant
classification-enabled search. -/

/-- A value in a search-parameter dictionary (string, boolean or integer,
as sent by the Python code). -/
inductive PV where
  | s (v : String)
  | b (v : Bool)
  | n (v : Nat)
  deriving DecidableEq

/-- Parameter dictionary of the retrieval search issued by
`MiddlewareSearch._retrieval_search`. -/
def middleware_retrieval_search_params (query : String) (limit : Nat) :
    List (String × PV) :=
  [("q", PV.s query),
   ("query_by",
    PV.s "name,description,short_description,sku,categories,brand,size,color"),
   ("per_page", PV.n limit),
   ("prefix", PV.s "true,true,true,false,false,false,false,false"),
   ("num_typos", PV.n 2),
   ("sort_by", PV.s "_text_match:desc"),
   ("nl_query", PV.s "false")]

/-- Parameter dictionary of the retrieval search issued by
`openai_middleware.retrieve_products` (the flag is the boolean `False`,
as stressed by the source comment "boolean, not string"). -/
def retrieve_products_params (query : String) (limit : Nat) :
    List (String × PV) :=
  [("q", PV.s query),
   ("query_by",
    PV.s "name,description,short_description,sku,categories,brand,size,color"),
   ("per_page", PV.n limit),
   ("prefix", PV.s "true,true,true,false,false,false,false,false"),
   ("num_typos", PV.n 2),
   ("typo_tokens_threshold", PV.n 1),
   ("drop_tokens_threshold", PV.n 2),
   ("sort_by", PV.s "_text_match:desc"),
   ("nl_query", PV.b false)]

/-- Parameter dictionary of the context retrieval issued by
`RAGNaturalLanguageSearch._retrieve_semantic_results` (the RAG variant's
"LLM call 1": it deliberately turns natural-language processing on to
extract filters). -/
def rag_retrieval_search_params (query : String) (retrieval_count : Nat) :
    List (String × PV) :=
  [("q", PV.s query),
   ("query_by", PV.s "name,description,short_description,sku,categories"),
   ("nl_query", PV.s "true"),
   ("nl_model_id", PV.s "9bb52abc-8bf8-4536-80de-8231e77fab14"),
   ("per_page", PV.n retrieval_count),
   ("sort_by", PV.s "_text_match:desc,price:asc")]

/-- First binding of a key in a parameter dictionary. -/
def lookupParam (ps : List (String × PV)) (k : String) : Option PV :=
  (ps.find? (fun p => p.1 = k)).map (fun p => p.2)

/-- Does the index treat this request as classification-enabled?  The
server parses the `nl_query` parameter as a boolean (`"true"`/`True`
enable it); an absent flag defaults to disabled. -/
def nlQueryEnabled (ps : List (String × PV)) : Bool :=
  match lookupParam ps "nl_query" with
  | some (PV.s v) => v = "true"
  | some (PV.b v) => v
  | some (PV.n _) => false
  | none => false

/-! ## Filter merging (`src/search_rag.py` 556-649)

`_search_with_category_filter` escapes the detected category, wraps it in
a `categories:=` clause quoted with backticks, strips category clauses
from the machine-extracted filter when the text `categories:=` occurs in
it, and joins the pieces with the boolean-AND separator. -/

/-- The boolean-AND separator of the index's filter grammar, as used by
the source (`' && '`). -/
def sepAnd : Str := [' ', '&', '&', ' ']

/-- The literal `"categories"` (the prefix tested by
`_remove_category_filter`). -/
def catWord : Str := "categories".data

/-- The literal `"categories:="` (the substring tested by
`_search_with_category_filter`). -/
def catAssign : Str := "categories:=".data

/-- Definition `RAGNaturalLanguageSearch._remove_category_filter`
(`src/search_rag.py` 630-649): split on `' && '`, keep the clauses that do
not start (after stripping) with `categories`, rejoin and strip. -/
def remove_category_filter (filter_by : Str) : Str :=
  let parts := splitSep sepAnd filter_by
  let kept := parts.filter (fun f => !isPre catWord (trimStr f))
  trimStr (joinSep sepAnd kept)

/-- The category clause built by `_search_with_category_filter`
(line 581): `categories:=` followed by the escaped value in backticks. -/
def category_filter_clause (category : Str) : Str :=
  catAssign ++ '`' :: (escapeBackticks category ++ ['`'])

/-- The `combined_filter` computed by `_search_with_category_filter`
(`src/search_rag.py` 577-595) from the detected category and the
machine-extracted (`parsed_params["filter_by"]`) filter string. -/
def build_combined_filter (category : Str) (nl_filter : Str) : Str :=
  let category_filter := category_filter_clause category
  let nl1 :=
    if (!nl_filter.isEmpty) && isSubstr catAssign nl_filter then
      remove_category_filter nl_filter
    else nl_filter
  if nl1.isEmpty then category_filter else category_filter ++ sepAnd ++ nl1

/-- A clause counts as a category clause exactly as in the source's own
de-duplication test: after stripping it starts with `categories`. -/
def isCategoryClause (clause : Str) : Bool :=
  isPre catWord (trimStr clause)

/-- The clauses of a filter expression: its `' && '`-separated parts. -/
def clausesOf (filter_by : Str) : List Str := splitSep sepAnd filter_by

/-- Definition of the category injection in `MiddlewareSearch.search`
(`src/search_middleware.py` 104-108): `search_params.get("filter_by", "")`
is extended with `' && '` when non-empty (Python truthiness of the string)
and the detected category is appended verbatim as
`categories:={detected_category}` — no stripping or escaping is applied
to the category value at this site. -/
def middleware_apply_category (filterBy : Option Str) (detected : Str) :
    Str :=
  let fb := filterBy.getD []
  let fb := if !fb.isEmpty then fb ++ sepAnd else fb
  fb ++ catAssign ++ detected

/-! ## Data model (`src/models.py`) -/

/-- Definition `Product` (`src/models.py` 25-38).  Prices are modelled by their exact
rational values. -/
structure Product where
  product_id : String
  sku : String
  name : String
  url_key : String
  stock_status : String
  product_type : String := "simple"
  description : Option String := none
  short_description : Option String := none
  price : Option ℚ := none
  currency : String := "USD"
  image_url : Option String := none
  categories : List String := []
  deriving DecidableEq

/-- A document inside a search hit returned by the index, with every field
optional (the Python code reads them with `doc.get(...)` defaults). -/
structure TDoc where
  product_id : Option String := none
  sku : Option String := none
  name : Option String := none
  url_key : Option String := none
  stock_status : Option String := none
  product_type : Option String := none
  description : Option String := none
  short_description : Option String := none
  price : Option ℚ := none
  currency : Option String := none
  image_url : Option String := none
  categories : Option (List String) := none
  deriving DecidableEq

/-- Definition `RAGNaturalLanguageSearch._transform_results` /
`NaturalLanguageSearch._transform_results`: build a `Product` per hit with
the source's defaults; a hit whose document has no `product_id` fails
pydantic validation (`product_id: str` receives `None`) and is skipped by
the `except` clause. -/
def transform_results (hits : List TDoc) : List Product :=
  hits.filterMap fun d =>
    match d.product_id with
    | none => none
    | some pid => some
      { product_id := pid
        sku := d.sku.getD ""
        name := d.name.getD ""
        url_key := d.url_key.getD ""
        stock_status := d.stock_status.getD "OUT_OF_STOCK"
        product_type := d.product_type.getD "simple"
        description := d.description
        short_description := d.short_description
        price := d.price
        currency := d.currency.getD "USD"
        image_url := d.image_url
        categories := d.categories.getD [] }

/-- Definition `RAGCategoryClassification` (`src/search_rag.py` 33-48); the response
time is observability-only and omitted. -/
structure RAGCategoryClassification where
  category : Option String
  confidence : ℚ
  reasoning : String
  top_categories : List (String × Nat)
  deriving DecidableEq

/-- The `generated_params` block of a `parsed_nl_query` answer from the
index (`q`, `filter_by`, `sort_by` are each present or absent). -/
structure NLParams where
  q : Option String := none
  filter_by : Option String := none
  sort_by : Option String := none
  deriving DecidableEq

/-- Parameters of the final filtered search built by
`_search_with_category_filter` (lines 603-609). -/
structure FinalSearchParams where
  q : String
  filter_by : String
  per_page : Nat
  sort_by : String
  deriving DecidableEq

/-- Definition `SearchResponse` (`src/models.py` 55-66); the wall-clock time and the
observability block `typesense_query` are omitted. -/
structure SearchResponse where
  results : List Product
  primary_results : List Product
  additional_results : Option (List Product)
  detected_category : Option String
  category_confidence : ℚ
  category_applied : Bool
  confidence_threshold : ℚ
  total : Nat
  deriving DecidableEq

/-- The network steps a pipeline run performs, in order (used to state
which collaborators a run invokes). -/
inductive PipelineStep where
  | retrieve
  | classify
  | finalSearch
  deriving DecidableEq

/-- Python truthiness of an `Optional[str]`: `None` and the empty string
are falsy. -/
def pyTruthyStrOpt : Option String → Bool
  | none => false
  | some s => !s.isEmpty

/-- Read a field of the optional `generated_params` block with a default,
as `parsed_params.get(key, default)` does on the possibly-empty dict. -/
def getParam (parsed : Option NLParams) (proj : NLParams → Option String)
    (dflt : String) : String :=
  match parsed with
  | none => dflt
  | some p => (proj p).getD dflt

/-- Definition `RAGNaturalLanguageSearch.search` (`src/search_rag.py` 62-230).

External collaborators are explicit inputs: `retrievalHits` and `parsed`
stand for the answer of the context-retrieval call
(`_retrieve_semantic_results`), `classification` for the answer of the
classification call (`_classify_category_with_llm`), and `final_search`
for the index's answer to the final filtered search.  The returned trace
records which collaborators the run invoked, in order. -/
def rag_search (query : String) (max_results : Nat)
    (confidence_threshold : ℚ) (retrievalHits : List TDoc)
    (parsed : Option NLParams)
    (classification : RAGCategoryClassification)
    (final_search : FinalSearchParams → List TDoc) :
    SearchResponse × List PipelineStep :=
  let max_results := (extract_limit_from_query query.data).getD max_results
  let retrieved := transform_results retrievalHits
  if retrieved.isEmpty then
    ({ results := []
       primary_results := []
       additional_results := none
       detected_category := none
       category_confidence := 0
       category_applied := false
       confidence_threshold := confidence_threshold
       total := 0 }, [PipelineStep.retrieve])
  else
    if pyTruthyStrOpt classification.category
        && decide (confidence_threshold ≤ classification.confidence) then
      let nl_filter := getParam parsed NLParams.filter_by ""
      let combined :=
        build_combined_filter (classification.category.getD "").data
          nl_filter.data
      let fparams : FinalSearchParams :=
        { q := getParam parsed NLParams.q query
          filter_by := String.mk combined
          per_page := max_results
          sort_by := getParam parsed NLParams.sort_by
            "_text_match:desc,price:asc" }
      let products := transform_results (final_search fparams)
      ({ results := products
         primary_results := products
         additional_results := none
         detected_category := classification.category
         category_confidence := classification.confidence
         category_applied := true
         confidence_threshold := confidence_threshold
         total := products.length },
       [PipelineStep.retrieve, PipelineStep.classify,
        PipelineStep.finalSearch])
    else
      let products := retrieved.take max_results
      ({ results := products
         primary_results := products
         additional_results := none
         detected_category := classification.category
         category_confidence := classification.confidence
         category_applied := false
         confidence_threshold := confidence_threshold
         total := products.length },
       [PipelineStep.retrieve, PipelineStep.classify])

/-! ## Classifier response parsing (`src/search_rag.py` 394-474)

`_classify_category_with_llm` wraps the whole model call in
`try/except`: inside the `try` it parses the response body with
`json.loads`, reads the fields with `dict.get` defaults and converts the
confidence with `float(...)`; any exception (parse failure, non-object
body, unconvertible confidence) is caught and turned into the
null-category / zero-confidence fallback.  The `Except` monad models the
Python exceptions; the outer `match` models the `except` clause. -/

/-- A JSON value, the possible results of `json.loads`. -/
inductive JValue where
  | jnull
  | jbool (b : Bool)
  | jnum (q : ℚ)
  | jstr (s : String)
  | jarr (xs : List JValue)
  | jobj (fields : List (String × JValue))

/-- Definition `dict.get(k)` on a parsed JSON object (no default). -/
def jget (fields : List (String × JValue)) (k : String) : Option JValue :=
  (fields.find? (fun p => p.1 = k)).map (fun p => p.2)

/-- Model of Python `float()` applied to a string: strip whitespace, then
an optional sign, digits, and an optional decimal fraction.  (The exotic
accepted forms — exponents, `inf`, `nan`, underscores — are outside the
model; they do not occur in the classification flow.) -/
def parseDecimal (s : Str) : Option ℚ :=
  let t := trimStr s
  let signed : ℤ × Str :=
    match t with
    | '-' :: r => (-1, r)
    | '+' :: r => (1, r)
    | _ => (1, t)
  let ip := signed.2.takeWhile Char.isDigit
  let r1 := signed.2.dropWhile Char.isDigit
  match r1 with
  | [] =>
    if ip.isEmpty then none
    else some (mkRat (signed.1 * (digitsToNat ip : ℤ)) 1)
  | '.' :: r2 =>
    let fp := r2.takeWhile Char.isDigit
    let r3 := r2.dropWhile Char.isDigit
    if r3.isEmpty && !(ip.isEmpty && fp.isEmpty) then
      some (mkRat
        (signed.1 * ((digitsToNat ip : ℤ) * (10 ^ fp.length : ℕ)
          + (digitsToNat fp : ℤ)))
        (10 ^ fp.length))
    else none
  | _ => none

/-- Python `float(v)` on a JSON value: numbers pass through, booleans map
to `1.0`/`0.0`, numeric strings are parsed, everything else raises. -/
def floatOfJ : JValue → Except String ℚ
  | JValue.jnum q => Except.ok q
  | JValue.jbool b => Except.ok (if b then 1 else 0)
  | JValue.jstr s =>
    match parseDecimal s.data with
    | some q => Except.ok q
    | none => Except.error "ValueError on confidence"
  | JValue.jnull => Except.error "TypeError on confidence"
  | JValue.jarr _ => Except.error "TypeError on confidence"
  | JValue.jobj _ => Except.error "TypeError on confidence"

/-- The fields of the `RAGCategoryClassification` that the parsing step
determines (the category as stored: `None` both for an absent key and a
JSON `null`; the reasoning as stored, a string in all non-degenerate
cases). -/
structure ClassifyOutcome where
  category : Option JValue
  confidence : ℚ
  reasoning : JValue

/-- The `except` branch of `_classify_category_with_llm` (lines 464-474):
null category, zero confidence, and a reasoning string naming the
failure. -/
def classifyFallback (err : String) : ClassifyOutcome :=
  { category := none
    confidence := 0
    reasoning := JValue.jstr ("LLM classification failed: " ++ err) }

/-- The body of the `try` block after the model call: read the fields of
the parsed object (`result.get` raises on a non-object), convert the
confidence with `float`. -/
def classify_parse_core (v : JValue) : Except String ClassifyOutcome :=
  match v with
  | JValue.jobj fields => do
    let category :=
      match jget fields "category" with
      | some JValue.jnull => none
      | o => o
    let conf ←
      match jget fields "confidence" with
      | none => Except.ok 0
      | some w => floatOfJ w
    let reasoning :=
      match jget fields "reasoning" with
      | none => JValue.jstr "No reasoning provided"
      | some w => w
    Except.ok { category := category, confidence := conf,
                reasoning := reasoning }
  | _ => Except.error "AttributeError on response"

/-- The classification step applied to the outcome of `json.loads` on the
model's response body (`Except.error` = the parse raised):
the `try/except` of `_classify_category_with_llm`. -/
def classify_parse (parsed : Except String JValue) : ClassifyOutcome :=
  match (do
      let v ← parsed
      classify_parse_core v : Except String ClassifyOutcome) with
  | Except.ok r => r
  | Except.error e => classifyFallback e

/-! ## The legacy confidence-ambiguous branch (`src/search.py`)

`NaturalLanguageSearch` computes an empirical confidence from the
already-retrieved products and, below threshold, partitions one extra
unfiltered search into primary/additional results (lines 79-92,
291-307, 331-359). -/

/-- Definition `NaturalLanguageSearch._product_matches_category`: the detected
category occurs case-insensitively inside one of the product's category
paths (a product without categories never matches). -/
def product_matches_category (p : Product) (category : String) : Bool :=
  p.categories.any (fun cat =>
    isSubstr (toLowerStr category.data) (toLowerStr cat.data))

/-- Python `round(x, 2)`: the nearest multiple of `1/100`, ties to the
even multiple.  Computed on the exact rational at the integer level
(`n` is the floor of `100 q`, `r` the remainder) to keep the definition
kernel-computable. -/
def roundTo2 (q : ℚ) : ℚ :=
  let p : ℤ := q.num * 100
  let d : ℤ := (q.den : ℤ)
  let n : ℤ := p.fdiv d
  let r : ℤ := p - n * d
  let m : ℤ :=
    if 2 * r < d then n
    else if d < 2 * r then n + 1
    else if n % 2 = 0 then n else n + 1
  mkRat m 100

/-- Definition `NaturalLanguageSearch._calculate_category_confidence`
(lines 331-359): the fraction of products matching the detected category,
rounded to two decimal places. -/
def calculate_category_confidence (products : List Product)
    (detected_category : String) : ℚ :=
  if detected_category.isEmpty || products.isEmpty then 0
  else
    roundTo2
      (mkRat
        (products.countP
          (fun p => product_matches_category p detected_category))
        products.length)

/-- Lines 88-92 of `NaturalLanguageSearch.search`: split the results of
the additional category-free search into the products matching the
detected category and the rest, the latter capped at `max_results`
(`None` when no product fails to match). -/
def low_confidence_partition (all_results : List Product)
    (detected_category : String) (max_results : Nat) :
    List Product × Option (List Product) :=
  let primary := all_results.filter
    (fun p => product_matches_category p detected_category)
  let additional := all_results.filter
    (fun p => !product_matches_category p detected_category)
  (primary,
   if additional.isEmpty then none else some (additional.take max_results))

/-! ## Flask error responses (`src/app.py`)

`search` (POST handler, lines 120-261): the missing-query check returns a
400 body with only an `error` field; the exception handler classifies the
exception message and returns a 503 or 500 body with `error` and
`message` fields. -/

/-- The 400 response for a request body without `query`
(`src/app.py` lines 124-127). -/
def missing_query_response : Nat × List (String × String) :=
  (400, [("error", "Missing 'query' in request body")])

/-- Classification of an exception message by the handler of
`src/app.py` lines 241-261: substring tests on the lowercased message. -/
def search_exception_response (error_message : String) :
    Nat × List (String × String) :=
  let m := toLowerStr error_message.data
  if isSubstr "unavailable".data m || isSubstr "cannot connect".data m then
    (503, [("error", error_message),
           ("message", "Search service is currently unavailable")])
  else if isSubstr "authentication".data m then
    (500, [("error", "Configuration error"),
           ("message", "Search service configuration error")])
  else
    (500, [("error", error_message),
           ("message", "An error occurred while processing your search")])

/-- Does a response body carry the given field? -/
def hasField (body : List (String × String)) (k : String) : Bool :=
  body.any (fun p => p.1 = k)

/-! ## Lemmas about `isPre`, `isSubstr` -/

theorem isPre_iff {p l : Str} : isPre p l = true ↔ ∃ r, l = p ++ r := by
  induction p generalizing l with
  | nil => simp [isPre]
  | cons a as ih =>
    cases l with
    | nil => simp [isPre]
    | cons b bs =>
      simp only [isPre, Bool.and_eq_true, decide_eq_true_eq, ih,
        List.cons_append, List.cons.injEq]
      constructor
      · rintro ⟨rfl, r, rfl⟩; exact ⟨r, rfl, rfl⟩
      · rintro ⟨r, rfl, rfl⟩; exact ⟨rfl, r, rfl⟩

theorem isPre_append (p r : Str) : isPre p (p ++ r) = true :=
  isPre_iff.mpr ⟨r, rfl⟩

theorem isPre_refl (p : Str) : isPre p p = true := by
  simpa using isPre_append p []

theorem isSubstr_iff {p l : Str} :
    isSubstr p l = true ↔ ∃ a b, l = a ++ p ++ b := by
  induction l with
  | nil =>
    simp only [isSubstr, isPre_iff]
    constructor
    · rintro ⟨r, h⟩
      exact ⟨[], r, by simpa using h⟩
    · rintro ⟨a, b, h⟩
      rcases List.append_eq_nil.mp (List.append_eq_nil.mp h.symm).1 with
        ⟨rfl, rfl⟩
      exact ⟨b, by simpa using h⟩
  | cons c cs ih =>
    simp only [isSubstr, Bool.or_eq_true, isPre_iff, ih]
    constructor
    · rintro (⟨r, h⟩ | ⟨a, b, rfl⟩)
      · exact ⟨[], r, by simpa using h⟩
      · exact ⟨c :: a, b, rfl⟩
    · rintro ⟨a, b, h⟩
      cases a with
      | nil => exact Or.inl ⟨b, by simpa using h⟩
      | cons a0 as =>
        simp only [List.cons_append, List.append_assoc] at h
        injection h with h1 h2
        exact Or.inr ⟨as, b, by simpa [List.append_assoc] using h2⟩

/-- An occurrence inside the right part is an occurrence in the whole. -/
theorem isSubstr_append_right {p r : Str} (l : Str)
    (h : isSubstr p r = true) : isSubstr p (l ++ r) = true := by
  rcases isSubstr_iff.mp h with ⟨a, b, rfl⟩
  exact isSubstr_iff.mpr ⟨l ++ a, b, by simp⟩

/-- An occurrence inside the left part is an occurrence in the whole. -/
theorem isSubstr_append_left {p l : Str} (r : Str)
    (h : isSubstr p l = true) : isSubstr p (l ++ r) = true := by
  rcases isSubstr_iff.mp h with ⟨a, b, rfl⟩
  exact isSubstr_iff.mpr ⟨a, b ++ r, by simp⟩

theorem isSubstr_of_isPre {p l : Str} (h : isPre p l = true) :
    isSubstr p l = true := by
  rcases isPre_iff.mp h with ⟨r, rfl⟩
  exact isSubstr_iff.mpr ⟨[], r, by simp⟩

/-- A substring of an infix is a substring of the whole. -/
theorem isSubstr_of_infix {p x a b : Str} (h : isSubstr p x = true)
    (hx : a ++ x ++ b = l) : isSubstr p l = true := by
  rcases isSubstr_iff.mp h with ⟨u, v, rfl⟩
  exact isSubstr_iff.mpr ⟨a ++ u, v ++ b, by rw [← hx]; simp⟩

/-- Pattern characters all avoid a prefix block: an occurrence in the
whole yields an occurrence in the rest. -/
theorem isSubstr_append_elim_left_mp {p pfx r : Str} (hp : p ≠ [])
    (hdisj : ∀ c ∈ p, c ∉ pfx)
    (h : isSubstr p (pfx ++ r) = true) : isSubstr p r = true := by
  rcases isSubstr_iff.mp h with ⟨a, b, hab⟩
  have hab' : a ++ (p ++ b) = pfx ++ r := by
    rw [← List.append_assoc, ← hab]
  rcases List.append_eq_append_iff.mp hab' with ⟨x, hx1, hx2⟩ | ⟨y, _, hy2⟩
  · -- pfx = a ++ x and p ++ b = x ++ r
    cases x with
    | nil =>
      have hr : r = p ++ b := by simpa using hx2.symm
      exact hr ▸ isSubstr_of_isPre (isPre_append p b)
    | cons x0 xs =>
      cases p with
      | nil => exact absurd rfl hp
      | cons p0 ps =>
        simp only [List.cons_append] at hx2
        injection hx2 with h1 _
        exact absurd (hx1 ▸ List.mem_append_right a (by simp [h1]))
          (hdisj p0 (by simp))
  · -- a = pfx ++ y and r = y ++ (p ++ b)
    exact isSubstr_iff.mpr ⟨y, b, by rw [hy2]; simp [List.append_assoc]⟩

theorem isSubstr_append_elim_left {p pfx r : Str} (hp : p ≠ [])
    (hdisj : ∀ c ∈ p, c ∉ pfx) :
    isSubstr p (pfx ++ r) = isSubstr p r := by
  cases h : isSubstr p (pfx ++ r) with
  | true => exact (isSubstr_append_elim_left_mp hp hdisj h).symm
  | false =>
    cases hr : isSubstr p r with
    | true => rw [← h, isSubstr_append_right pfx hr]
    | false => rfl

theorem isSubstr_reverse_mp {p l : Str} (h : isSubstr p l = true) :
    isSubstr p.reverse l.reverse = true := by
  rcases isSubstr_iff.mp h with ⟨a, b, rfl⟩
  exact isSubstr_iff.mpr ⟨b.reverse, a.reverse, by simp⟩

theorem isSubstr_reverse {p l : Str} :
    isSubstr p.reverse l.reverse = isSubstr p l := by
  cases h : isSubstr p l with
  | true => exact isSubstr_reverse_mp h
  | false =>
    cases h' : isSubstr p.reverse l.reverse with
    | true =>
      have := isSubstr_reverse_mp h'
      rw [List.reverse_reverse, List.reverse_reverse, h] at this
      exact this.symm
    | false => rfl

/-- Pattern characters all avoid a suffix block: occurrences can only lie
in the front. -/
theorem isSubstr_append_elim_right {p sfx r : Str} (hp : p ≠ [])
    (hdisj : ∀ c ∈ p, c ∉ sfx) :
    isSubstr p (r ++ sfx) = isSubstr p r := by
  have h1 : isSubstr p.reverse (sfx.reverse ++ r.reverse)
      = isSubstr p.reverse r.reverse := by
    refine isSubstr_append_elim_left (by simpa using hp) ?_
    intro c hc
    simpa using fun hm => hdisj c (by simpa using hc) (by simpa using hm)
  calc isSubstr p (r ++ sfx)
      = isSubstr p.reverse (r ++ sfx).reverse := (isSubstr_reverse).symm
    _ = isSubstr p.reverse (sfx.reverse ++ r.reverse) := by
        simp [List.reverse_append]
    _ = isSubstr p.reverse r.reverse := h1
    _ = isSubstr p r := isSubstr_reverse

/-! ## Lemmas about `splitSep` / `joinSep` -/

theorem splitSepF_ne_nil (sep : Str) (fuel : Nat) (l : Str) :
    splitSepF sep fuel l ≠ [] := by
  cases fuel with
  | zero => cases l <;> simp [splitSepF]
  | succ n =>
    cases l with
    | nil => simp [splitSepF]
    | cons c rest =>
      simp only [splitSepF]
      split
      · simp
      · split <;> simp

/-- Any sufficient fuel computes the same split. -/
theorem splitSepF_fuel_irrel (sep : Str) :
    ∀ f1 f2 l, l.length ≤ f1 → l.length ≤ f2 →
      splitSepF sep f1 l = splitSepF sep f2 l := by
  intro f1
  induction f1 with
  | zero =>
    intro f2 l h1 _
    have : l = [] := List.length_eq_zero.mp (Nat.le_zero.mp h1)
    subst this
    cases f2 <;> simp [splitSepF]
  | succ n ih =>
    intro f2 l h1 h2
    cases l with
    | nil => cases f2 <;> simp [splitSepF]
    | cons c rest =>
      cases f2 with
      | zero => exact absurd h2 (by simp)
      | succ m =>
        simp only [splitSepF]
        have hrest : rest.length ≤ n := by
          simpa using Nat.lt_succ_iff.mp (Nat.lt_of_lt_of_le (by simp) h1)
        have hrest2 : rest.length ≤ m := by
          simpa using Nat.lt_succ_iff.mp (Nat.lt_of_lt_of_le (by simp) h2)
        split
        · rw [ih m (rest.drop (sep.length - 1))
            (le_trans (by simp) hrest) (le_trans (by simp) hrest2)]
        · rw [ih m rest hrest hrest2]

theorem splitSep_nil (sep : Str) : splitSep sep [] = [[]] := rfl

theorem splitSep_pos {sep : Str} {c : Char} {rest : Str}
    (h : ((!sep.isEmpty) && isPre sep (c :: rest)) = true) :
    splitSep sep (c :: rest)
      = [] :: splitSep sep (rest.drop (sep.length - 1)) := by
  unfold splitSep
  simp only [List.length_cons, splitSepF, h, if_pos]
  rw [splitSepF_fuel_irrel sep rest.length (rest.drop (sep.length - 1)).length
    (rest.drop (sep.length - 1)) (by simp) le_rfl]

theorem splitSep_neg {sep : Str} {c : Char} {rest : Str}
    (h : ((!sep.isEmpty) && isPre sep (c :: rest)) = false) :
    splitSep sep (c :: rest)
      = match splitSep sep rest with
        | [] => [[c]]
        | p :: ps => (c :: p) :: ps := by
  unfold splitSep
  simp only [List.length_cons, splitSepF, h]
  rfl

theorem splitSep_ne_nil (sep l : Str) : splitSep sep l ≠ [] :=
  splitSepF_ne_nil sep l.length l

/-- Splitting then joining reconstructs the string. -/
theorem joinSep_splitSep (sep : Str) :
    ∀ l, joinSep sep (splitSep sep l) = l := by
  suffices H : ∀ n l, l.length ≤ n → joinSep sep (splitSep sep l) = l by
    intro l; exact H l.length l le_rfl
  intro n
  induction n with
  | zero =>
    intro l h
    have : l = [] := List.length_eq_zero.mp (Nat.le_zero.mp h)
    subst this; rfl
  | succ n ih =>
    intro l hl
    cases l with
    | nil => rfl
    | cons c rest =>
      have hrest : rest.length ≤ n := by simpa using hl
      cases hcond : ((!sep.isEmpty) && isPre sep (c :: rest)) with
      | true =>
        rw [splitSep_pos hcond]
        obtain ⟨hne, hpre⟩ := Bool.and_eq_true_iff.mp hcond
        rcases isPre_iff.mp hpre with ⟨r, hr⟩
        have hsep1 : 1 ≤ sep.length := by
          cases sep with
          | nil => simp at hne
          | cons _ _ => simp
        have hdrop : rest.drop (sep.length - 1) = r := by
          have : (c :: rest).drop sep.length = r := by
            rw [hr]; exact List.drop_left sep r
          rwa [← Nat.succ_pred_eq_of_pos hsep1, List.drop_succ_cons] at this
        have hrlen : r.length ≤ n := by
          have := congrArg List.length hr
          simp at this
          omega
        have ihr := ih r hrlen
        rcases hS : splitSep sep r with _ | ⟨p, ps⟩
        · exact absurd hS (splitSep_ne_nil sep r)
        · rw [hdrop, hS]
          rw [hS] at ihr
          calc joinSep sep ([] :: p :: ps)
              = [] ++ sep ++ joinSep sep (p :: ps) := rfl
            _ = sep ++ r := by rw [ihr]; rfl
            _ = c :: rest := hr.symm
      | false =>
        rw [splitSep_neg hcond]
        have ihr := ih rest hrest
        rcases hS : splitSep sep rest with _ | ⟨p, ps⟩
        · exact absurd hS (splitSep_ne_nil sep rest)
        · rw [hS] at ihr
          cases ps with
          | nil => simpa [joinSep] using congrArg (c :: ·) ihr
          | cons q qs =>
            calc joinSep sep ((c :: p) :: q :: qs)
                = (c :: p) ++ sep ++ joinSep sep (q :: qs) := rfl
              _ = c :: (p ++ sep ++ joinSep sep (q :: qs)) := by simp
              _ = c :: joinSep sep (p :: q :: qs) := rfl
              _ = c :: rest := by rw [ihr]

theorem isPre_of_append_long {p x y : Str} (h : isPre p (x ++ y) = true)
    (hlen : p.length ≤ x.length) : isPre p x = true := by
  rcases isPre_iff.mp h with ⟨r, hr⟩
  have htake : (x ++ y).take p.length = p := by
    rw [hr]; exact List.take_left p r
  rw [List.take_append_of_le_length hlen] at htake
  refine isPre_iff.mpr ⟨x.drop p.length, ?_⟩
  calc x = x.take p.length ++ x.drop p.length :=
        (List.take_append_drop _ x).symm
    _ = p ++ x.drop p.length := by rw [htake]

theorem isPre_false_of_and_false {sep : Str} {l : Str} (hne : sep ≠ [])
    (h : ((!sep.isEmpty) && isPre sep l) = false) : isPre sep l = false := by
  have : (!sep.isEmpty) = true := by
    cases sep with
    | nil => exact absurd rfl hne
    | cons _ _ => rfl
  simpa [this] using h

theorem isPre_nil_false {sep : Str} (hne : sep ≠ []) :
    isPre sep [] = false := by
  cases sep with
  | nil => exact absurd rfl hne
  | cons _ _ => rfl

/-- The head part of a split is a prefix of the string. -/
theorem splitSep_head_pre (sep l : Str) {p : Str} {ps : List Str}
    (h : splitSep sep l = p :: ps) : ∃ w, l = p ++ w := by
  have hj := joinSep_splitSep sep l
  rw [h] at hj
  cases ps with
  | nil => exact ⟨[], by simpa [joinSep] using hj.symm⟩
  | cons q qs => exact ⟨sep ++ joinSep sep (q :: qs), by
      rw [← hj]; simp [joinSep, List.append_assoc]⟩

/-- No part produced by the splitter contains the separator. -/
theorem splitSep_parts_sepFree (sep : Str) (hsep : sep ≠ []) :
    ∀ l p, p ∈ splitSep sep l → isSubstr sep p = false := by
  suffices H : ∀ n l, l.length ≤ n →
      ∀ p ∈ splitSep sep l, isSubstr sep p = false by
    intro l; exact H l.length l le_rfl
  intro n
  induction n with
  | zero =>
    intro l h p hp
    have : l = [] := List.length_eq_zero.mp (Nat.le_zero.mp h)
    subst this
    simp only [splitSep_nil, List.mem_singleton] at hp
    subst hp
    simp [isSubstr, isPre_nil_false hsep]
  | succ n ih =>
    intro l hl p hp
    cases l with
    | nil =>
      simp only [splitSep_nil, List.mem_singleton] at hp
      subst hp
      simp [isSubstr, isPre_nil_false hsep]
    | cons c rest =>
      have hrest : rest.length ≤ n := by simpa using hl
      cases hcond : ((!sep.isEmpty) && isPre sep (c :: rest)) with
      | true =>
        rw [splitSep_pos hcond] at hp
        rcases List.mem_cons.mp hp with rfl | hp'
        · simp [isSubstr, isPre_nil_false hsep]
        · exact ih (rest.drop (sep.length - 1))
            (le_trans (by simp) hrest) p hp'
      | false =>
        rw [splitSep_neg hcond] at hp
        rcases hS : splitSep sep rest with _ | ⟨h', t⟩
        · exact absurd hS (splitSep_ne_nil sep rest)
        · rw [hS] at hp
          simp only at hp
          rcases List.mem_cons.mp hp with rfl | hp'
          · -- p = c :: h'
            have hsubh : isSubstr sep h' = false :=
              ih rest hrest h' (hS ▸ List.mem_cons_self h' t)
            have hpre : isPre sep (c :: h') = false := by
              cases hpre : isPre sep (c :: h') with
              | false => rfl
              | true =>
                rcases splitSep_head_pre sep rest hS with ⟨w, hw⟩
                rcases isPre_iff.mp hpre with ⟨r, hr⟩
                have : isPre sep (c :: rest) = true := by
                  refine isPre_iff.mpr ⟨r ++ w, ?_⟩
                  rw [hw]
                  have : c :: (h' ++ w) = (c :: h') ++ w := rfl
                  rw [this, hr]
                  simp [List.append_assoc]
                rw [isPre_false_of_and_false hsep hcond] at this
                exact absurd this (by simp)
            simp [isSubstr, hpre, hsubh]
          · exact ih rest hrest p (hS ▸ List.mem_cons_of_mem h' hp')

/-- Splitting a separator-free string is the identity. -/
theorem splitSep_of_sepFree (sep : Str) :
    ∀ l, isSubstr sep l = false → splitSep sep l = [l] := by
  suffices H : ∀ n l, l.length ≤ n → isSubstr sep l = false →
      splitSep sep l = [l] by
    intro l; exact H l.length l le_rfl
  intro n
  induction n with
  | zero =>
    intro l h _
    have : l = [] := List.length_eq_zero.mp (Nat.le_zero.mp h)
    subst this; rfl
  | succ n ih =>
    intro l hl hsub
    cases l with
    | nil => rfl
    | cons c rest =>
      have hrest : rest.length ≤ n := by simpa using hl
      simp only [isSubstr, Bool.or_eq_false_iff] at hsub
      have hcond : ((!sep.isEmpty) && isPre sep (c :: rest)) = false := by
        simp [hsub.1]
      rw [splitSep_neg hcond, ih rest hrest hsub.2]

/-! ## `sepAnd`-specific structure lemmas -/

/-- Definition `endsAmp a` : does `a` end in `' '::'&'::'&'` (the only self-overlap
of the separator, the one way an occurrence can straddle a boundary)? -/
def endsAmp (a : Str) : Bool := isPre ['&', '&', ' '] a.reverse

theorem endsAmp_cons {a : Str} {c : Char} (h : endsAmp a = true) :
    endsAmp (c :: a) = true := by
  rcases isPre_iff.mp h with ⟨r, hr⟩
  refine isPre_iff.mpr ⟨r ++ [c], ?_⟩
  simp [hr]

/-- The separator cannot be a prefix of `a ++ sepAnd ++ b` when `a` is a
non-empty separator-free string not ending in `" &&"`. -/
theorem sepAnd_not_pre {a b : Str} (hne : a ≠ [])
    (hsub : isSubstr sepAnd a = false) (hend : endsAmp a = false) :
    isPre sepAnd (a ++ (sepAnd ++ b)) = false := by
  rcases a with _ | ⟨c1, _ | ⟨c2, _ | ⟨c3, _ | ⟨c4, a'⟩⟩⟩⟩
  · exact absurd rfl hne
  · simp [sepAnd, isPre]
  · simp [sepAnd, isPre]
  · -- length three: a prefix forces a = " &&", contradicting endsAmp
    cases hpre : isPre sepAnd ([c1, c2, c3] ++ (sepAnd ++ b)) with
    | false => rfl
    | true =>
      have hc : ' ' = c1 ∧ '&' = c2 ∧ '&' = c3 := by
        simpa [sepAnd, isPre] using hpre
      obtain ⟨h1, h2, h3⟩ := hc
      subst h1; subst h2; subst h3
      simp [endsAmp, isPre] at hend
  · -- length at least four: a prefix means the separator occurs in a
    simp only [List.cons_append]
    cases hpre : isPre sepAnd (c1 :: c2 :: c3 :: c4 :: (a' ++ (sepAnd ++ b)))
      with
    | false => rfl
    | true =>
      have : isPre sepAnd (c1 :: c2 :: c3 :: c4 :: a') = true := by
        refine @isPre_of_append_long sepAnd (c1 :: c2 :: c3 :: c4 :: a')
          (sepAnd ++ b) ?_ (by simp [sepAnd])
        simpa using hpre
      rw [isSubstr, this] at hsub
      simp at hsub

/-- Splitting `a ++ sepAnd ++ b` splits first at the marked boundary when
`a` is separator-free and does not end in `" &&"`. -/
theorem splitSep_append_sepAnd (b : Str) :
    ∀ a : Str, isSubstr sepAnd a = false → endsAmp a = false →
      splitSep sepAnd (a ++ sepAnd ++ b) = a :: splitSep sepAnd b := by
  intro a
  induction a with
  | nil =>
    intro _ _
    have hcond : ((!sepAnd.isEmpty)
        && isPre sepAnd (' ' :: ('&' :: '&' :: ' ' :: b))) = true := by
      simp [sepAnd, isPre]
    calc splitSep sepAnd ([] ++ sepAnd ++ b)
        = splitSep sepAnd (' ' :: ('&' :: '&' :: ' ' :: b)) := by
          simp [sepAnd]
      _ = [] :: splitSep sepAnd (('&' :: '&' :: ' ' :: b).drop
            (sepAnd.length - 1)) := splitSep_pos hcond
      _ = [] :: splitSep sepAnd b := by simp [sepAnd]
  | cons c a' ih =>
    intro hsub hend
    have hsub' : isSubstr sepAnd a' = false := by
      rw [isSubstr, Bool.or_eq_false_iff] at hsub
      exact hsub.2
    have hend' : endsAmp a' = false := by
      cases hx : endsAmp a' with
      | false => rfl
      | true => exact absurd (endsAmp_cons hx) (by rw [hend]; simp)
    have hpre : isPre sepAnd ((c :: a') ++ (sepAnd ++ b)) = false :=
      sepAnd_not_pre (by simp) hsub hend
    simp only [List.cons_append, List.append_assoc] at hpre ⊢
    simp only [List.append_assoc] at ih
    have hcond : ((!sepAnd.isEmpty)
        && isPre sepAnd (c :: (a' ++ (sepAnd ++ b)))) = false := by
      simp [hpre]
    rw [@splitSep_neg sepAnd c (a' ++ (sepAnd ++ b)) hcond, ih hsub' hend']

/-- All parts but the last avoid the `" &&"` suffix. -/
def chainOK : List Str → Prop
  | [] => True
  | [_] => True
  | p :: q :: t => endsAmp p = false ∧ chainOK (q :: t)

theorem chainOK_filter (f : Str → Bool) :
    ∀ l, chainOK l → chainOK (l.filter f) := by
  intro l
  induction l with
  | nil => intro _; simp [chainOK]
  | cons p t ih =>
    intro h
    have hct : chainOK t := by
      cases t with
      | nil => trivial
      | cons q qs => exact h.2
    by_cases hf : f p = true
    · rw [List.filter_cons_of_pos hf]
      rcases hT : t.filter f with _ | ⟨q, qs⟩
      · trivial
      · refine ⟨?_, hT ▸ ih hct⟩
        -- p is followed by a survivor, so it was not last in l
        cases t with
        | nil => simp at hT
        | cons r rs => exact h.1
    · rw [List.filter_cons_of_neg (by simpa using hf)]
      exact ih hct

/-- The parts produced by the splitter satisfy `chainOK`. -/
theorem splitSep_chainOK : ∀ l, chainOK (splitSep sepAnd l) := by
  suffices H : ∀ n l, l.length ≤ n → chainOK (splitSep sepAnd l) by
    intro l; exact H l.length l le_rfl
  intro n
  induction n with
  | zero =>
    intro l h
    have : l = [] := List.length_eq_zero.mp (Nat.le_zero.mp h)
    subst this; trivial
  | succ n ih =>
    intro l hl
    cases l with
    | nil => trivial
    | cons c rest =>
      have hrest : rest.length ≤ n := by simpa using hl
      cases hcond : ((!sepAnd.isEmpty) && isPre sepAnd (c :: rest)) with
      | true =>
        rw [splitSep_pos hcond]
        have hS := ih (rest.drop (sepAnd.length - 1))
          (le_trans (by simp) hrest)
        rcases hT : splitSep sepAnd (rest.drop (sepAnd.length - 1)) with
          _ | ⟨q, qs⟩
        · trivial
        · exact ⟨by simp [endsAmp, isPre], hT ▸ hS⟩
      | false =>
        rw [splitSep_neg hcond]
        rcases hS : splitSep sepAnd rest with _ | ⟨h', t⟩
        · exact absurd hS (splitSep_ne_nil sepAnd rest)
        · simp only
          cases t with
          | nil => trivial
          | cons q qs =>
            have hichain := ih rest hrest
            rw [hS] at hichain
            obtain ⟨hendh, hchaint⟩ := hichain
            refine ⟨?_, hchaint⟩
            -- endsAmp (c :: h') = false
            rcases h' with _ | ⟨h1, _ | ⟨h2, hs⟩⟩
            · simp [endsAmp, isPre]
            · simp [endsAmp, isPre]
            · cases hs with
              | nil =>
                -- h' = [h1, h2]; a straddle here would contradict hcond
                cases hamp : endsAmp (c :: [h1, h2]) with
                | false => rfl
                | true =>
                  have hc : '&' = h2 ∧ '&' = h1 ∧ ' ' = c := by
                    simpa [endsAmp, isPre] using hamp
                  obtain ⟨h2e, h1e, ce⟩ := hc
                  subst h2e; subst h1e; subst ce
                  have hj := joinSep_splitSep sepAnd rest
                  rw [hS] at hj
                  have hrw : rest = ['&', '&'] ++ sepAnd ++
                      joinSep sepAnd (q :: qs) := by
                    rw [← hj]; rfl
                  have : isPre sepAnd (' ' :: rest) = true := by
                    rw [hrw]
                    simp [sepAnd, isPre]
                  rw [isPre_false_of_and_false (by simp [sepAnd]) hcond]
                    at this
                  exact this.symm
              | cons h3 hs' =>
                cases hamp : endsAmp (c :: h1 :: h2 :: h3 :: hs') with
                | false => rfl
                | true =>
                  have hup : endsAmp (h1 :: h2 :: h3 :: hs') = true := by
                    have h0 := hamp
                    unfold endsAmp at h0 ⊢
                    rw [List.reverse_cons] at h0
                    exact isPre_of_append_long h0 (by simp)
                  exact absurd hup (by rw [hendh]; simp)

/-- Splitting the join of acceptable parts recovers the parts. -/
theorem splitSep_joinSep (parts : List Str) (hne : parts ≠ [])
    (hfree : ∀ p ∈ parts, isSubstr sepAnd p = false)
    (hchain : chainOK parts) :
    splitSep sepAnd (joinSep sepAnd parts) = parts := by
  induction parts with
  | nil => exact absurd rfl hne
  | cons p t ih =>
    cases t with
    | nil =>
      exact splitSep_of_sepFree sepAnd p (hfree p (by simp))
    | cons q qs =>
      have hj : joinSep sepAnd (p :: q :: qs)
          = p ++ sepAnd ++ joinSep sepAnd (q :: qs) := rfl
      rw [hj, splitSep_append_sepAnd _ p (hfree p (by simp)) hchain.1,
        ih (by simp) (fun x hx => hfree x (List.mem_cons_of_mem p hx))
          hchain.2]

/-! ## Trim/clean lemmas and the merge master lemma -/

/-- A clause with no leading or trailing whitespace (in particular
non-empty). -/
def cleanPart (p : Str) : Bool :=
  match p.head?, p.getLast? with
  | some c, some z => (!isWs c) && (!isWs z)
  | _, _ => false

theorem cleanPart_ne_nil {p : Str} (h : cleanPart p = true) : p ≠ [] := by
  intro hp
  subst hp
  simp [cleanPart] at h

theorem trimStr_noop {l : Str}
    (hhead : ∀ c, l.head? = some c → isWs c = false)
    (hlast : ∀ c, l.getLast? = some c → isWs c = false) :
    trimStr l = l := by
  cases l with
  | nil => rfl
  | cons c t =>
    have h1 : isWs c = false := hhead c rfl
    unfold trimStr
    rw [List.dropWhile_cons]
    simp only [h1, Bool.false_eq_true, if_false]
    rcases hrev : (c :: t).reverse with _ | ⟨z, w⟩
    · exact absurd hrev (by simp)
    · have hz : (c :: t).getLast? = some z := by
        rw [← List.head?_reverse, hrev]; rfl
      have h2 : isWs z = false := hlast z hz
      rw [List.dropWhile_cons]
      simp only [h2, Bool.false_eq_true, if_false]
      rw [← hrev, List.reverse_reverse]

theorem trimStr_of_clean {p : Str} (h : cleanPart p = true) :
    trimStr p = p := by
  unfold cleanPart at h
  rcases hh : p.head? with _ | c <;> rcases hl : p.getLast? with _ | z <;>
    rw [hh, hl] at h <;> try simp at h
  refine trimStr_noop (fun c' hc' => ?_) (fun z' hz' => ?_)
  · rw [hh] at hc'; injection hc' with e; subst e; simpa using h.1
  · rw [hl] at hz'; injection hz' with e; subst e; simpa using h.2

/-- The join of clean parts is clean. -/
theorem joinSep_clean : ∀ (p : Str) (ps : List Str),
    (∀ x ∈ p :: ps, cleanPart x = true) →
    cleanPart (joinSep sepAnd (p :: ps)) = true := by
  intro p ps
  induction ps generalizing p with
  | nil => intro h; exact (by simpa [joinSep] using h p (by simp))
  | cons q qs ih =>
    intro h
    have hp := h p (by simp)
    have hrest : cleanPart (joinSep sepAnd (q :: qs)) = true :=
      ih q (fun x hx => h x (List.mem_cons_of_mem p hx))
    have hj : joinSep sepAnd (p :: q :: qs)
        = p ++ (sepAnd ++ joinSep sepAnd (q :: qs)) := by
      simp [joinSep, List.append_assoc]
    -- head of the join is the head of p, last is the last of the tail join
    unfold cleanPart at hp hrest ⊢
    rcases hh : p.head? with _ | c
    · rw [hh] at hp; simp at hp
    · rcases hl : p.getLast? with _ | z
      · rw [hh, hl] at hp; simp at hp
      · rw [hh, hl] at hp
        rcases hh2 : (joinSep sepAnd (q :: qs)).head? with _ | c2
        · rw [hh2] at hrest; simp at hrest
        · rcases hl2 : (joinSep sepAnd (q :: qs)).getLast? with _ | z2
          · rw [hh2, hl2] at hrest; simp at hrest
          · rw [hh2, hl2] at hrest
            have hwhole_head : (joinSep sepAnd (p :: q :: qs)).head?
                = some c := by
              rw [hj, List.head?_append, hh]; rfl
            have hwhole_last : (joinSep sepAnd (p :: q :: qs)).getLast?
                = some z2 := by
              rw [hj, List.getLast?_append, List.getLast?_append, hl2]; rfl
            rw [hwhole_head, hwhole_last]
            simp only [Bool.and_eq_true] at hp hrest ⊢
            exact ⟨hp.1, hrest.2⟩

theorem joinSep_ne_nil_of_clean {p : Str} {ps : List Str}
    (h : ∀ x ∈ p :: ps, cleanPart x = true) :
    joinSep sepAnd (p :: ps) ≠ [] :=
  cleanPart_ne_nil (joinSep_clean p ps h)

theorem isPre_append_of_isPre {p a : Str} (x : Str)
    (h : isPre p a = true) : isPre p (a ++ x) = true := by
  rcases isPre_iff.mp h with ⟨r, rfl⟩
  exact isPre_iff.mpr ⟨r ++ x, by simp⟩

theorem escapeBackticks_noop : ∀ {y : Str}, '`' ∉ y →
    escapeBackticks y = y := by
  intro y
  induction y with
  | nil => intro _; rfl
  | cons c cs ih =>
    intro h
    have hc : c ≠ '`' := fun e => h (by simp [e])
    simp only [escapeBackticks, if_neg hc]
    rw [ih (fun hm => h (List.mem_cons_of_mem c hm))]

/-! Facts about the injected category clause, for a detected category
containing neither a backtick nor the separator. -/

theorem category_clause_eq {y : Str} (hbt : '`' ∉ y) :
    category_filter_clause y = (catAssign ++ ['`']) ++ (y ++ ['`']) := by
  unfold category_filter_clause
  rw [escapeBackticks_noop hbt]
  simp

theorem category_clause_sepFree {y : Str} (hbt : '`' ∉ y)
    (hfree : isSubstr sepAnd y = false) :
    isSubstr sepAnd (category_filter_clause y) = false := by
  rw [category_clause_eq hbt]
  rw [isSubstr_append_elim_left (by simp [sepAnd])
    (by intro c hc; simp [sepAnd] at hc; rcases hc with rfl | rfl | rfl <;> decide)]
  rw [isSubstr_append_elim_right (by simp [sepAnd])
    (by intro c hc; simp [sepAnd] at hc; rcases hc with rfl | rfl | rfl <;> decide)]
  exact hfree

theorem category_clause_not_endsAmp {y : Str} (hbt : '`' ∉ y) :
    endsAmp (category_filter_clause y) = false := by
  rw [category_clause_eq hbt]
  unfold endsAmp
  have : ((catAssign ++ ['`']) ++ (y ++ ['`'])).reverse
      = '`' :: (y.reverse ++ (catAssign ++ ['`']).reverse) := by
    simp
  rw [this]
  simp [isPre]

theorem category_clause_clean {y : Str} (hbt : '`' ∉ y) :
    cleanPart (category_filter_clause y) = true := by
  rw [category_clause_eq hbt]
  unfold cleanPart
  have hh : ((catAssign ++ ['`']) ++ (y ++ ['`'])).head? = some 'c' := by
    rfl
  have hl : ((catAssign ++ ['`']) ++ (y ++ ['`'])).getLast? = some '`' := by
    rw [List.getLast?_append, List.getLast?_append]
    rfl
  rw [hh, hl]
  decide

theorem category_clause_isCat {y : Str} (hbt : '`' ∉ y) :
    isCategoryClause (category_filter_clause y) = true := by
  unfold isCategoryClause
  rw [trimStr_of_clean (category_clause_clean hbt), category_clause_eq hbt]
  have : (catAssign ++ ['`']) ++ (y ++ ['`'])
      = catWord ++ ((':' :: '=' :: '`' :: []) ++ (y ++ ['`'])) := by
    simp [catAssign, catWord]
  rw [this]
  exact isPre_append _ _

theorem category_clause_catAssign_pre {y : Str} (hbt : '`' ∉ y) :
    isPre catAssign (category_filter_clause y) = true := by
  rw [category_clause_eq hbt]
  have : (catAssign ++ ['`']) ++ (y ++ ['`'])
      = catAssign ++ (['`'] ++ (y ++ ['`'])) := by simp
  rw [this]
  exact isPre_append _ _

/-- The clauses of the machine filter kept by the de-duplication. -/
def keptParts (F : Str) : List Str :=
  (splitSep sepAnd F).filter (fun p => !isPre catWord (trimStr p))

/-- The clause shape under which the de-duplication of
`_search_with_category_filter` is complete: every clause is non-empty with
no outer whitespace, and a clause constraining the category is written
with the exact-match form `categories:=`. -/
def goodNLFilter (F : Str) : Bool :=
  F.isEmpty || (splitSep sepAnd F).all (fun p =>
    cleanPart p && ((!isPre catWord (trimStr p)) || isPre catAssign (trimStr p)))

/-- The stripped clause is an infix of the clause. -/
theorem trimStr_infix (p : Str) : ∃ a b, p = a ++ trimStr p ++ b := by
  refine ⟨p.takeWhile isWs,
    ((p.dropWhile isWs).reverse.takeWhile isWs).reverse, ?_⟩
  have h2 : (p.dropWhile isWs).reverse.takeWhile isWs
      ++ (p.dropWhile isWs).reverse.dropWhile isWs
      = (p.dropWhile isWs).reverse :=
    List.takeWhile_append_dropWhile isWs (p.dropWhile isWs).reverse
  have h3 : p.dropWhile isWs
      = trimStr p ++ ((p.dropWhile isWs).reverse.takeWhile isWs).reverse := by
    unfold trimStr
    calc p.dropWhile isWs = ((p.dropWhile isWs).reverse).reverse := by simp
      _ = ((p.dropWhile isWs).reverse.takeWhile isWs
            ++ (p.dropWhile isWs).reverse.dropWhile isWs).reverse := by
          rw [h2]
      _ = ((p.dropWhile isWs).reverse.dropWhile isWs).reverse
            ++ ((p.dropWhile isWs).reverse.takeWhile isWs).reverse := by
          rw [List.reverse_append]
  calc p = p.takeWhile isWs ++ p.dropWhile isWs :=
        (List.takeWhile_append_dropWhile isWs p).symm
    _ = p.takeWhile isWs
          ++ (trimStr p
            ++ ((p.dropWhile isWs).reverse.takeWhile isWs).reverse) := by
        rw [← h3]
    _ = p.takeWhile isWs ++ trimStr p
          ++ ((p.dropWhile isWs).reverse.takeWhile isWs).reverse := by
        rw [List.append_assoc]

/-- Each part is an infix of the join. -/
theorem joinSep_part_infix (sep : Str) :
    ∀ (parts : List Str), ∀ p ∈ parts,
      ∃ a b, joinSep sep parts = a ++ p ++ b := by
  intro parts
  induction parts with
  | nil => intro p hp; simp at hp
  | cons q t ih =>
    intro p hp
    rcases List.mem_cons.mp hp with rfl | hp'
    · cases t with
      | nil => exact ⟨[], [], by simp [joinSep]⟩
      | cons r rs => exact ⟨[], sep ++ joinSep sep (r :: rs), by
          simp [joinSep, List.append_assoc]⟩
    · rcases ih p hp' with ⟨a, b, hab⟩
      cases t with
      | nil => simp at hp'
      | cons r rs =>
        exact ⟨q ++ sep ++ a, b, by simp [joinSep, hab, List.append_assoc]⟩

/-- Each part is an infix of the split string. -/
theorem splitSep_part_infix (sep l : Str) {p : Str}
    (hp : p ∈ splitSep sep l) : ∃ a b, l = a ++ p ++ b := by
  rcases joinSep_part_infix sep (splitSep sep l) p hp with ⟨a, b, hab⟩
  exact ⟨a, b, by rw [← joinSep_splitSep sep l, hab]⟩

theorem goodNLFilter_parts {F : Str} (hgood : goodNLFilter F = true)
    (hFne : F ≠ []) :
    ∀ p ∈ splitSep sepAnd F, cleanPart p = true
      ∧ (isPre catWord (trimStr p) = false
          ∨ isPre catAssign (trimStr p) = true) := by
  intro p hp
  unfold goodNLFilter at hgood
  have hne : F.isEmpty = false := by
    cases F with
    | nil => exact absurd rfl hFne
    | cons _ _ => rfl
  rw [hne] at hgood
  simp only [Bool.false_or, List.all_eq_true] at hgood
  have := hgood p hp
  simp only [Bool.and_eq_true, Bool.or_eq_true, Bool.not_eq_true'] at this
  exact this

theorem keptParts_props {F : Str} (hgood : goodNLFilter F = true)
    (hFne : F ≠ []) :
    ∀ p ∈ keptParts F, isPre catWord (trimStr p) = false
      ∧ cleanPart p = true ∧ isSubstr sepAnd p = false := by
  intro p hp
  unfold keptParts at hp
  have hmem := List.mem_of_mem_filter hp
  have hflt := List.of_mem_filter hp
  refine ⟨by simpa using hflt, (goodNLFilter_parts hgood hFne p hmem).1, ?_⟩
  exact splitSep_parts_sepFree sepAnd (by simp [sepAnd]) F p hmem

theorem keptParts_chainOK (F : Str) : chainOK (keptParts F) :=
  chainOK_filter _ _ (splitSep_chainOK F)

/-- Definition `_remove_category_filter`, written through `keptParts`
(definitional). -/
theorem remove_category_filter_eq (F : Str) :
    remove_category_filter F = trimStr (joinSep sepAnd (keptParts F)) := rfl

/-- The branch structure of the `combined_filter` construction
(definitional). -/
theorem build_combined_filter_eq (y F : Str) :
    build_combined_filter y F =
      (if (if ((!F.isEmpty) && isSubstr catAssign F) = true
            then remove_category_filter F else F).isEmpty = true
       then category_filter_clause y
       else category_filter_clause y ++ sepAnd ++
         (if ((!F.isEmpty) && isSubstr catAssign F) = true
            then remove_category_filter F else F)) := rfl

/-- Master lemma: under the documented clause shape, merging produces the
category clause followed by exactly the kept machine clauses. -/
theorem merge_master {y F : Str} (hbt : '`' ∉ y)
    (hfree : isSubstr sepAnd y = false) (hgood : goodNLFilter F = true)
    (hFne : F ≠ []) :
    (keptParts F = [] ∧
      build_combined_filter y F = category_filter_clause y) ∨
    (keptParts F ≠ [] ∧
      build_combined_filter y F
        = category_filter_clause y ++ sepAnd ++ joinSep sepAnd (keptParts F)
      ∧ splitSep sepAnd (build_combined_filter y F)
        = category_filter_clause y :: keptParts F) := by
  have hFe : F.isEmpty = false := by
    cases F with
    | nil => exact absurd rfl hFne
    | cons _ _ => rfl
  by_cases hC : isSubstr catAssign F = true
  · -- the de-duplication runs
    have hcond : ((!F.isEmpty) && isSubstr catAssign F) = true := by
      simp [hFe, hC]
    rcases hk : keptParts F with _ | ⟨k, ks⟩
    · left
      refine ⟨rfl, ?_⟩
      have hrm : remove_category_filter F = [] := by
        rw [remove_category_filter_eq, hk]; rfl
      rw [build_combined_filter_eq, hcond]
      simp only [eq_self_iff_true, if_true, hrm]
      rfl
    · right
      have hclean : ∀ x ∈ k :: ks, cleanPart x = true := by
        intro x hx
        exact (keptParts_props hgood hFne x (hk ▸ hx)).2.1
      have hrm : remove_category_filter F = joinSep sepAnd (k :: ks) := by
        rw [remove_category_filter_eq, hk]
        exact trimStr_of_clean (joinSep_clean k ks hclean)
      have hjoin_ne : (joinSep sepAnd (k :: ks)).isEmpty = false := by
        have := joinSep_ne_nil_of_clean hclean
        cases hj : joinSep sepAnd (k :: ks) with
        | nil => exact absurd hj this
        | cons _ _ => rfl
      have hbuild : build_combined_filter y F
          = category_filter_clause y ++ sepAnd ++ joinSep sepAnd (k :: ks)
          := by
        rw [build_combined_filter_eq, hcond]
        simp only [eq_self_iff_true, if_true, hrm, hjoin_ne]
        rfl
      refine ⟨by simp, hk ▸ hbuild, ?_⟩
      rw [hbuild]
      rw [splitSep_append_sepAnd _ _ (category_clause_sepFree hbt hfree)
        (category_clause_not_endsAmp hbt)]
      rw [splitSep_joinSep (k :: ks) (by simp)
        (fun x hx => (keptParts_props hgood hFne x (hk ▸ hx)).2.2)
        (hk ▸ keptParts_chainOK F)]
  · -- no category text in the machine filter: nothing is dropped
    have hparts : ∀ p ∈ splitSep sepAnd F,
        isPre catWord (trimStr p) = false := by
      intro p hp
      rcases (goodNLFilter_parts hgood hFne p hp).2 with h | h
      · exact h
      · -- a `categories:=` clause would put the text into F
        exfalso
        rcases trimStr_infix p with ⟨a, b, hab⟩
        rcases splitSep_part_infix sepAnd F hp with ⟨u, v, huv⟩
        have h1 : isSubstr catAssign (trimStr p) = true :=
          isSubstr_of_isPre h
        have h2 : isSubstr catAssign p = true :=
          isSubstr_of_infix h1 hab.symm
        have h3 : isSubstr catAssign F = true :=
          isSubstr_of_infix h2 huv.symm
        exact hC h3
    have hkeep : keptParts F = splitSep sepAnd F := by
      unfold keptParts
      refine List.filter_eq_self.mpr ?_
      intro p hp
      simp [hparts p hp]
    have hcond : ((!F.isEmpty) && isSubstr catAssign F) = false := by
      simp only [Bool.and_eq_false_iff]
      right
      cases h : isSubstr catAssign F with
      | true => exact absurd h hC
      | false => rfl
    right
    have hjoinF : joinSep sepAnd (keptParts F) = F := by
      rw [hkeep]; exact joinSep_splitSep sepAnd F
    have hbuild : build_combined_filter y F
        = category_filter_clause y ++ sepAnd ++ F := by
      rw [build_combined_filter_eq, hcond]
      simp only [Bool.false_eq_true, if_false, hFe]
    refine ⟨by rw [hkeep]; exact splitSep_ne_nil sepAnd F, by
      rw [hjoinF]; exact hbuild, ?_⟩
    rw [hbuild, splitSep_append_sepAnd _ _
      (category_clause_sepFree hbt hfree)
      (category_clause_not_endsAmp hbt)]
    rw [hkeep]

theorem keptParts_not_cat {F : Str} (hgood : goodNLFilter F = true)
    (hFne : F ≠ []) :
    ∀ p ∈ keptParts F, isCategoryClause p = false := by
  intro p hp
  exact (keptParts_props hgood hFne p hp).1

/-- Merging into a string that is exactly the category clause
reproduces the category clause. -/
theorem build_on_single_category_clause {y : Str} (hbt : '`' ∉ y)
    (hfree : isSubstr sepAnd y = false) :
    build_combined_filter y (category_filter_clause y)
      = category_filter_clause y := by
  have hne : (category_filter_clause y).isEmpty = false := by
    rw [category_clause_eq hbt]
    rfl
  have hsub : isSubstr catAssign (category_filter_clause y) = true :=
    isSubstr_of_isPre (category_clause_catAssign_pre hbt)
  have hcond : ((!(category_filter_clause y).isEmpty)
      && isSubstr catAssign (category_filter_clause y)) = true := by
    rw [hne, hsub]; rfl
  have hkept : keptParts (category_filter_clause y) = [] := by
    unfold keptParts
    rw [splitSep_of_sepFree sepAnd _ (category_clause_sepFree hbt hfree)]
    have : (!isPre catWord (trimStr (category_filter_clause y))) = false := by
      have := category_clause_isCat hbt
      unfold isCategoryClause at this
      rw [this]; rfl
    simp [List.filter, this]
  have hrm : remove_category_filter (category_filter_clause y) = [] := by
    rw [remove_category_filter_eq, hkept]; rfl
  rw [build_combined_filter_eq, hcond]
  simp only [eq_self_iff_true, if_true, hrm]
  rfl

/-- Second merge over a merge result with surviving machine clauses:
the category clause found at the front is dropped and rebuilt. -/
theorem build_on_merge_result {y : Str} (hbt : '`' ∉ y)
    (_hfree : isSubstr sepAnd y = false) {k : Str} {ks : List Str}
    (hclean : ∀ x ∈ k :: ks, cleanPart x = true)
    (hnotcat : ∀ x ∈ k :: ks, isCategoryClause x = false)
    (hsplit : splitSep sepAnd
        (category_filter_clause y ++ sepAnd ++ joinSep sepAnd (k :: ks))
      = category_filter_clause y :: k :: ks) :
    build_combined_filter y
        (category_filter_clause y ++ sepAnd ++ joinSep sepAnd (k :: ks))
      = category_filter_clause y ++ sepAnd ++ joinSep sepAnd (k :: ks) := by
  set G := category_filter_clause y ++ sepAnd ++ joinSep sepAnd (k :: ks)
    with hG
  have hne : G.isEmpty = false := by
    rw [hG, category_clause_eq hbt]
    rfl
  have hsub : isSubstr catAssign G = true := by
    rw [hG]
    have h1 : isPre catAssign (category_filter_clause y ++ sepAnd
        ++ joinSep sepAnd (k :: ks)) = true := by
      rw [List.append_assoc]
      exact isPre_append_of_isPre _ (category_clause_catAssign_pre hbt)
    exact isSubstr_of_isPre h1
  have hcond : ((!G.isEmpty) && isSubstr catAssign G) = true := by
    rw [hne, hsub]; rfl
  have hkept : keptParts G = k :: ks := by
    unfold keptParts
    rw [hsplit]
    rw [List.filter_cons_of_neg (by
      have := category_clause_isCat hbt
      unfold isCategoryClause at this
      simp [this])]
    refine List.filter_eq_self.mpr ?_
    intro x hx
    have := hnotcat x hx
    unfold isCategoryClause at this
    simp [this]
  have hrm : remove_category_filter G = joinSep sepAnd (k :: ks) := by
    rw [remove_category_filter_eq, hkept]
    exact trimStr_of_clean (joinSep_clean k ks hclean)
  have hjoin_ne : (joinSep sepAnd (k :: ks)).isEmpty = false := by
    have := joinSep_ne_nil_of_clean hclean
    cases hj : joinSep sepAnd (k :: ks) with
    | nil => exact absurd hj this
    | cons _ _ => rfl
  rw [build_combined_filter_eq, hcond]
  simp only [eq_self_iff_true, if_true, hrm, hjoin_ne]
  rfl

/-- Claim C3, amended.  For a detected category containing neither a
backtick nor the clause separator, and a machine-extracted filter whose
clauses are non-empty, have no outer whitespace, and write any category
constraint in the `categories:=` form, the merged `combined_filter`
contains exactly one category clause — the backtick-quoted clause for the
detected category itself. -/
theorem c3_merged_filter_single_category_clause (y F : Str)
    (hbt : '`' ∉ y) (hfree : isSubstr sepAnd y = false)
    (hgood : goodNLFilter F = true) :
    (clausesOf (build_combined_filter y F)).filter isCategoryClause
      = [category_filter_clause y] := by
  have hcat : isCategoryClause (category_filter_clause y) = true :=
    category_clause_isCat hbt
  by_cases hFne : F = []
  · subst hFne
    have hb : build_combined_filter y [] = category_filter_clause y := rfl
    rw [hb]
    unfold clausesOf
    rw [splitSep_of_sepFree sepAnd _ (category_clause_sepFree hbt hfree)]
    simp [List.filter, hcat]
  · rcases merge_master hbt hfree hgood hFne with ⟨_, hb⟩ | ⟨hk, _, hsplit⟩
    · rw [hb]
      unfold clausesOf
      rw [splitSep_of_sepFree sepAnd _ (category_clause_sepFree hbt hfree)]
      simp [List.filter, hcat]
    · unfold clausesOf
      rw [hsplit, List.filter_cons_of_pos hcat]
      have : (keptParts F).filter isCategoryClause = [] := by
        rw [List.filter_eq_nil_iff]
        intro p hp
        simp [keptParts_not_cat hgood hFne p hp]
      rw [this]

/-- Claim C3 counterexample.  A machine filter constraining the category as
`categories:Old` (no `:=`) escapes the de-duplication guard, so the
merged filter carries two category clauses, falsifying the claim as
stated over all machine-extracted filter expressions. -/
theorem c3_counterexample :
    build_combined_filter "Gloves".data "categories:Old".data
        = "categories:=`Gloves` && categories:Old".data
    ∧ (clausesOf (build_combined_filter "Gloves".data
        "categories:Old".data)).countP isCategoryClause = 2 := by
  constructor <;> decide

/-- Claim C3 witness: the amended theorem at a concrete category and a
concrete two-clause machine filter. -/
theorem c3_witness :
    ('`' ∉ "Gloves".data)
    ∧ isSubstr sepAnd "Gloves".data = false
    ∧ goodNLFilter "price:<50 && stock_status:=IN_STOCK".data = true
    ∧ (clausesOf (build_combined_filter "Gloves".data
          "price:<50 && stock_status:=IN_STOCK".data)).filter
        isCategoryClause
      = [category_filter_clause "Gloves".data] :=
  ⟨by decide, by decide, by decide,
    c3_merged_filter_single_category_clause "Gloves".data
      "price:<50 && stock_status:=IN_STOCK".data
      (by decide) (by decide) (by decide)⟩

/-- Claim C4, amended.  Under the same clause shape as C3 — category
without backtick or separator, machine clauses non-empty, without outer
whitespace, category constraints written `categories:=` — merging the
detected category into the result of a first merge reproduces that
result exactly: the re-merge is a no-op. -/
theorem c4_merge_idempotent (y F : Str) (hbt : '`' ∉ y)
    (hfree : isSubstr sepAnd y = false) (hgood : goodNLFilter F = true) :
    build_combined_filter y (build_combined_filter y F)
      = build_combined_filter y F := by
  by_cases hFne : F = []
  · subst hFne
    have hb : build_combined_filter y [] = category_filter_clause y := rfl
    rw [hb]
    exact build_on_single_category_clause hbt hfree
  · rcases merge_master hbt hfree hgood hFne with ⟨_, hb⟩ | ⟨hk, hb, hsplit⟩
    · rw [hb]
      exact build_on_single_category_clause hbt hfree
    · rcases hkk : keptParts F with _ | ⟨k, ks⟩
      · exact absurd hkk hk
      · rw [hkk] at hb hsplit
        rw [hb] at hsplit
        rw [hb]
        exact build_on_merge_result hbt hfree
          (fun x hx => (keptParts_props hgood hFne x (hkk ▸ hx)).2.1)
          (fun x hx => keptParts_not_cat hgood hFne x (hkk ▸ hx))
          hsplit

/-- Claim C4 counterexample.  With the machine filter `categories:Old`
the first merge leaves the stray category clause in place and the second
merge then strips it, so re-merging is not a no-op: the claim fails as
stated over all filter expressions. -/
theorem c4_counterexample :
    build_combined_filter "Gloves".data
        (build_combined_filter "Gloves".data "categories:Old".data)
      ≠ build_combined_filter "Gloves".data "categories:Old".data := by
  decide

/-- Claim C4 witness: the amended idempotence at a concrete category and a
concrete machine filter. -/
theorem c4_witness :
    ('`' ∉ "Gloves".data)
    ∧ isSubstr sepAnd "Gloves".data = false
    ∧ goodNLFilter "price:<50".data = true
    ∧ build_combined_filter "Gloves".data
          (build_combined_filter "Gloves".data "price:<50".data)
        = build_combined_filter "Gloves".data "price:<50".data :=
  ⟨by decide, by decide, by decide,
    c4_merge_idempotent "Gloves".data "price:<50".data
      (by decide) (by decide) (by decide)⟩

/-! ## Claim theorems: C8, C5, C2, C9 -/

theorem limitInRange_range {r : Option Nat} {n : Nat}
    (h : limitInRange r = some n) : 1 ≤ n ∧ n ≤ 100 := by
  cases r with
  | none => simp [limitInRange] at h
  | some m =>
    rw [show limitInRange (some m)
        = if 1 ≤ m ∧ m ≤ 100 then some m else none from rfl] at h
    by_cases hc : 1 ≤ m ∧ m ≤ 100
    · rw [if_pos hc] at h; injection h with e; subst e; exact hc
    · rw [if_neg hc] at h; cases h

theorem orElse_eq_some {a : Option Nat} {f : Unit → Option Nat} {n : Nat}
    (h : a.orElse f = some n) : a = some n ∨ f () = some n := by
  cases a with
  | none => right; simpa [Option.orElse] using h
  | some m => left; simpa [Option.orElse] using h

theorem extract_limit_range {q : Str} {n : Nat}
    (h : extract_limit_from_query q = some n) : 1 ≤ n ∧ n ≤ 100 := by
  unfold extract_limit_from_query at h
  rcases orElse_eq_some h with h | h
  · exact limitInRange_range h
  · rcases orElse_eq_some h with h | h
    · exact limitInRange_range h
    · rcases orElse_eq_some h with h | h
      · exact limitInRange_range h
      · exact limitInRange_range h

/-- Claim C8.  The limit extractor returns no match or an integer in
`[1,100]` (an out-of-range capture counts as no match for its pattern),
and on the four spec examples it returns `5`, `10`, `3` and no match
respectively. -/
theorem c8_limit_extractor :
    (∀ q : Str, extract_limit_from_query q = none
      ∨ ∃ n, extract_limit_from_query q = some n ∧ 1 ≤ n ∧ n ≤ 100)
    ∧ extract_limit_from_query "5 most expensive gloves".data = some 5
    ∧ extract_limit_from_query "top 10 reagents".data = some 10
    ∧ extract_limit_from_query "first 3 pipettes".data = some 3
    ∧ extract_limit_from_query "gloves".data = none := by
  refine ⟨fun q => ?_, by decide, by decide, by decide, by decide⟩
  cases h : extract_limit_from_query q with
  | none => exact Or.inl rfl
  | some n => exact Or.inr ⟨n, rfl, extract_limit_range h⟩

theorem noUnescB_cons_backtick (prev : Option Char) (rest : Str) :
    noUnescB prev ('`' :: rest)
      = (decide (prev = some '\\') && noUnescB (some '`') rest) := by
  unfold noUnescB
  rw [if_pos rfl]
  cases rest <;> rfl

theorem noUnescB_cons_other {c : Char} (h : c ≠ '`') (prev : Option Char)
    (rest : Str) : noUnescB prev (c :: rest) = noUnescB (some c) rest := by
  unfold noUnescB
  rw [if_neg h]
  cases rest <;> rfl

theorem noUnescB_escape (cs : Str) :
    ∀ prev, noUnescB prev (escapeBackticks cs) = true := by
  induction cs with
  | nil => intro prev; rfl
  | cons c cs' ih =>
    intro prev
    by_cases hc : c = '`'
    · subst hc
      rw [show escapeBackticks ('`' :: cs') = '\\' :: '`' :: escapeBackticks
          cs' from by unfold escapeBackticks; rw [if_pos rfl]; cases cs' <;>
            rfl]
      rw [noUnescB_cons_other (by decide) prev]
      rw [noUnescB_cons_backtick]
      simp [ih (some '`')]
    · rw [show escapeBackticks (c :: cs') = c :: escapeBackticks cs' from by
        unfold escapeBackticks; rw [if_neg hc]; cases cs' <;> rfl]
      rw [noUnescB_cons_other hc prev]
      exact ih (some c)

/-- Claim C5, amended.  The backtick half of the escaping guarantee holds
at the two category-merge implementations: the RAG merge
(`_search_with_category_filter`) escapes every backtick of the detected
category with a backslash, so the value it injects contains no unescaped
backtick, and the openai-middleware merge (`apply_category_filter`)
strips backticks entirely.  Quote characters are untouched by both, and
the third injection site (`MiddlewareSearch.search`) applies no handling
at all — see the counterexample. -/
theorem c5_category_escaping :
    (∀ y : Str, noUnescapedBacktick (escapeBackticks y) = true)
    ∧ (∀ y : Str, '`' ∉ stripBackticks y) := by
  refine ⟨fun y => noUnescB_escape y none, fun y h => ?_⟩
  rw [stripBackticks, List.mem_filter] at h
  simp at h

/-- Claim C5, counterexample to the original claim.  The third cited
injection site, `MiddlewareSearch.search` (`src/search_middleware.py`
107), appends the detected category verbatim: a category value containing
a backtick yields a filter expression with an unescaped backtick.  Quote
characters are not filter-neutralised anywhere: the RAG escape and the
middleware strip both leave a value containing a double quote unchanged,
so quotes are neither stripped nor escaped before injection. -/
theorem c5_counterexample_unescaped_injection :
    noUnescapedBacktick (middleware_apply_category none
      ['G', 'y', 'm', ' ', '`', 'B', 'a', 'g']) = false
    ∧ escapeBackticks ['1', '0', '"', ' ', 'B', 'a', 'r']
        = ['1', '0', '"', ' ', 'B', 'a', 'r']
    ∧ stripBackticks ['1', '0', '"', ' ', 'B', 'a', 'r']
        = ['1', '0', '"', ' ', 'B', 'a', 'r']
    ∧ '"' ∈ (['1', '0', '"', ' ', 'B', 'a', 'r'] : Str) := by
  decide

/-- Claim C2, amended.  The context-retrieval requests of the decoupled
middleware pipeline (`MiddlewareSearch._retrieval_search` and
`openai_middleware.retrieve_products`) carry a disabled `nl_query` flag,
so the index invokes no classification model for them and no reentrant
classification-enabled search can be triggered by retrieval.  (The RAG
variant's retrieval deliberately enables `nl_query` for filter
extraction — see the counterexample.) -/
theorem c2_decoupled_retrieval_disables_classification :
    ∀ (query : String) (limit : Nat),
      nlQueryEnabled (middleware_retrieval_search_params query limit) = false
      ∧ nlQueryEnabled (retrieve_products_params query limit) = false :=
  fun _ _ => ⟨rfl, rfl⟩

/-- Claim C2 counterexample.  The RAG pipeline's context retrieval
(`_retrieve_semantic_results`) sends `nl_query = "true"`: that
context-retrieval request is *not* sent with the classification flag
disabled, refuting the claim as stated over every retrieval request of
the pipeline. -/
theorem c2_counterexample_rag_retrieval :
    nlQueryEnabled (rag_retrieval_search_params "nitrile gloves" 20)
      = true := rfl

/-- Claim C9, amended.  Exception responses of the search endpoint carry
both `error` and `message` fields, with status 503 exactly when the
message signals index unavailability and 500 otherwise; the missing-query
response has status 400 and an `error` field, but carries no
`message` field (see the counterexample). -/
theorem c9_error_responses :
    (∀ msg : String,
      hasField (search_exception_response msg).2 "error" = true
      ∧ hasField (search_exception_response msg).2 "message" = true
      ∧ ((search_exception_response msg).1 = 503
          ∨ (search_exception_response msg).1 = 500)
      ∧ ((search_exception_response msg).1 = 503
          ↔ (isSubstr "unavailable".data (toLowerStr msg.data)
              || isSubstr "cannot connect".data (toLowerStr msg.data))
            = true))
    ∧ missing_query_response.1 = 400
    ∧ hasField missing_query_response.2 "error" = true := by
  refine ⟨fun msg => ?_, rfl, rfl⟩
  unfold search_exception_response
  by_cases h1 : (isSubstr "unavailable".data (toLowerStr msg.data)
      || isSubstr "cannot connect".data (toLowerStr msg.data)) = true
  · rw [if_pos h1]
    exact ⟨rfl, rfl, Or.inl rfl, by simp [h1]⟩
  · rw [if_neg h1]
    by_cases h2 : isSubstr "authentication".data (toLowerStr msg.data) = true
    · rw [if_pos h2]
      exact ⟨rfl, rfl, Or.inr rfl, by simp [h1]⟩
    · rw [if_neg h2]
      exact ⟨rfl, rfl, Or.inr rfl, by simp [h1]⟩

/-- Claim C9 counterexample.  The 400 response for a missing query carries
only the machine-readable `error` field and no human-readable `message`
field, refuting "every error response carries both". -/
theorem c9_counterexample_missing_message :
    missing_query_response.1 = 400
    ∧ hasField missing_query_response.2 "message" = false := ⟨rfl, rfl⟩

/-! ## Claim theorems: C6, C1, C10, C7 -/

/-- Claim C6, amended.  Any exception inside the classification step —
in particular a response body that fails to parse as JSON — yields the
null-category, zero-confidence fallback whose reasoning string names the
failure; a response that parses to an object with missing fields gets
per-field defaults: a missing (or null) `category` becomes null, a
missing `confidence` becomes `0.0`, a missing `reasoning` becomes the
default string.  No exception escapes: `classify_parse` is total, every
failure path ending in the fallback value.  (The claim's stronger
reading — *any* missing required field forces confidence `0.0` — fails:
see the counterexample, where a missing category leaves a supplied
confidence in place.) -/
theorem c6_classifier_fallback :
    (∀ e : String,
      classify_parse (Except.error e)
        = { category := none, confidence := 0,
            reasoning :=
              JValue.jstr ("LLM classification failed: " ++ e) })
    ∧ (∀ fields, jget fields "category" = none →
        jget fields "confidence" = none →
        classify_parse (Except.ok (JValue.jobj fields))
          = { category := none, confidence := 0,
              reasoning := (jget fields "reasoning").getD
                (JValue.jstr "No reasoning provided") }) := by
  constructor
  · intro e; rfl
  · intro fields h1 h2
    rw [show classify_parse (Except.ok (JValue.jobj fields))
        = (match classify_parse_core (JValue.jobj fields) with
           | Except.ok r => r
           | Except.error e => classifyFallback e) from rfl]
    simp only [classify_parse_core]
    rw [h1, h2]
    cases hr : jget fields "reasoning" <;> rfl

/-- Claim C6 counterexample.  A parsed body `{"confidence": 0.9}` lacks the
required `category` field, yet the classifier keeps confidence `0.9`
rather than degrading it to `0.0` as the claim requires. -/
theorem c6_counterexample_partial_fields :
    (classify_parse (Except.ok (JValue.jobj
        [("confidence", JValue.jnum (mkRat 9 10))]))).category = none
    ∧ (classify_parse (Except.ok (JValue.jobj
        [("confidence", JValue.jnum (mkRat 9 10))]))).confidence
      = mkRat 9 10
    ∧ mkRat 9 10 ≠ 0 := by
  refine ⟨rfl, rfl, ?_⟩
  norm_num [Rat.mkRat_eq_div]

/-- Claim C6 witness: the amended theorem at an empty parsed object and at
a concrete parse error. -/
theorem c6_witness :
    (classify_parse (Except.error "Expecting value: line 1 column 1")
      = { category := none, confidence := 0,
          reasoning := JValue.jstr
            ("LLM classification failed: Expecting value: line 1 column 1")
        })
    ∧ jget [] "category" = none
    ∧ jget [] "confidence" = none
    ∧ classify_parse (Except.ok (JValue.jobj []))
      = { category := none, confidence := 0,
          reasoning := (jget [] "reasoning").getD
            (JValue.jstr "No reasoning provided") } :=
  ⟨c6_classifier_fallback.1 "Expecting value: line 1 column 1",
   rfl, rfl, c6_classifier_fallback.2 [] rfl rfl⟩

/-- Claim C1, amended.  On the normal path (non-empty retrieval), the
category filter is applied — and the `category_applied` flag of the
constructed `SearchResponse` is `true` — exactly when the detected
category is non-null *and non-empty* and the confidence is at least the
threshold (the comparison is inclusive).  The claim as stated, with
"non-null" alone, fails on an empty-string category: see the
counterexample. -/
theorem c1_category_gate (query : String) (max_results : Nat) (t : ℚ)
    (hits : List TDoc) (parsed : Option NLParams)
    (cls : RAGCategoryClassification)
    (fs : FinalSearchParams → List TDoc)
    (hne : transform_results hits ≠ []) :
    ((rag_search query max_results t hits parsed cls fs).1.category_applied
        = true)
      ↔ ∃ s, cls.category = some s ∧ s ≠ "" ∧ t ≤ cls.confidence := by
  unfold rag_search
  have hne' : (transform_results hits).isEmpty = false := by
    simpa using hne
  simp only [hne', Bool.false_eq_true, if_false]
  cases hgate : pyTruthyStrOpt cls.category
      && decide (t ≤ cls.confidence) with
  | true =>
    rw [if_pos rfl]
    obtain ⟨htr, hdec⟩ := Bool.and_eq_true_iff.mp hgate
    cases hcat : cls.category with
    | none => rw [hcat] at htr; simp [pyTruthyStrOpt] at htr
    | some s =>
      rw [hcat] at htr
      simp only [pyTruthyStrOpt, Bool.not_eq_true'] at htr
      refine ⟨fun _ => ⟨s, rfl, ?_, of_decide_eq_true hdec⟩, fun _ => rfl⟩
      intro hs
      subst hs
      exact absurd htr (by decide)
  | false =>
    rw [if_neg Bool.false_ne_true]
    constructor
    · intro hx
      exact Bool.noConfusion (show false = true from hx)
    · rintro ⟨s, hs, hsne, hle⟩
      have h1 : pyTruthyStrOpt cls.category = true := by
        rw [hs]
        simp only [pyTruthyStrOpt, Bool.not_eq_true']
        cases he : s.isEmpty with
        | false => rfl
        | true => exact absurd ((String.isEmpty_iff s).mp he) hsne
      have h2 : decide (t ≤ cls.confidence) = true := decide_eq_true hle
      rw [h1, h2] at hgate
      exact absurd hgate (by simp)

/-- Claim C1 counterexample.  A classification with the empty-string
category (non-null) and confidence `0.9 ≥ 0.75` does not get the filter
applied — Python truthiness treats `""` as absent — refuting the claim's
"non-null and confidence ≥ threshold" condition as stated. -/
theorem c1_counterexample_empty_category :
    ((rag_search "gloves" 5 (mkRat 3 4) [{ product_id := some "P1" }] none
        { category := some "", confidence := mkRat 9 10, reasoning := "r",
          top_categories := [] }
        (fun _ => [])).1.category_applied = false)
    ∧ some "" ≠ (none : Option String)
    ∧ mkRat 3 4 ≤ mkRat 9 10 := by
  exact ⟨by decide, by decide, by decide⟩

/-- Claim C1 witness: the amended gate at a concrete run whose confidence
exactly equals the threshold (exercising the inclusive comparison). -/
theorem c1_witness :
    transform_results [{ product_id := some "P1" }] ≠ []
    ∧ (((rag_search "gloves" 5 (mkRat 3 4) [{ product_id := some "P1" }]
          none
          { category := some "Gloves", confidence := mkRat 3 4,
            reasoning := "r", top_categories := [] }
          (fun _ => [])).1.category_applied = true)
        ↔ ∃ s, (some "Gloves" : Option String) = some s ∧ s ≠ ""
            ∧ mkRat 3 4 ≤ mkRat 3 4) :=
  ⟨by decide,
   c1_category_gate "gloves" 5 (mkRat 3 4) [{ product_id := some "P1" }]
     none
     { category := some "Gloves", confidence := mkRat 3 4,
       reasoning := "r", top_categories := [] }
     (fun _ => []) (by decide)⟩

/-- Claim C10.  When the context retrieval yields zero products, the RAG
search returns at once: empty results, null detected category, zero
confidence, `category_applied = false`, total `0`, the supplied threshold
echoed — and the trace shows that neither the classifier nor the final
search was invoked. -/
theorem c10_empty_retrieval (query : String) (max_results : Nat) (t : ℚ)
    (hits : List TDoc) (parsed : Option NLParams)
    (cls : RAGCategoryClassification)
    (fs : FinalSearchParams → List TDoc)
    (h : transform_results hits = []) :
    rag_search query max_results t hits parsed cls fs
      = ({ results := [], primary_results := [], additional_results := none,
           detected_category := none, category_confidence := 0,
           category_applied := false, confidence_threshold := t,
           total := 0 },
         [PipelineStep.retrieve]) := by
  unfold rag_search
  have hne : (transform_results hits).isEmpty = true := by simp [h]
  simp [hne]

/-- Claim C10 witness: the empty-retrieval return at concrete inputs,
with a classifier oracle that would have passed the gate had it been
consulted. -/
theorem c10_witness :
    transform_results ([] : List TDoc) = []
    ∧ rag_search "gloves" 20 (mkRat 3 4) [] none
        { category := some "Gloves", confidence := mkRat 9 10,
          reasoning := "r", top_categories := [] }
        (fun _ => [])
      = ({ results := [], primary_results := [], additional_results := none,
           detected_category := none, category_confidence := 0,
           category_applied := false, confidence_threshold := mkRat 3 4,
           total := 0 },
         [PipelineStep.retrieve]) :=
  ⟨rfl,
   c10_empty_retrieval "gloves" 20 (mkRat 3 4) [] none
     { category := some "Gloves", confidence := mkRat 9 10,
       reasoning := "r", top_categories := [] }
     (fun _ => []) rfl⟩

/-- Claim C7, amended.  In the confidence-ambiguous branch the empirical
confidence equals the fraction of already-retrieved products whose
category list contains the detected category case-insensitively,
*rounded to two decimal places* (the claim omits the rounding — see the
counterexample); the partition of the additional search keeps exactly
the matching results as `primary_results`, puts every non-matching
result into `additional_results` whenever the additional search returned
at most `max_results` hits (its page size), and `additional_results`
never exceeds `max_results` elements. -/
theorem c7_confidence_and_partition (products all_results : List Product)
    (detected : String) (mr : Nat) (hdet : detected ≠ "")
    (hps : products ≠ []) :
    (calculate_category_confidence products detected
      = roundTo2 (mkRat (products.countP
          (fun p => product_matches_category p detected))
          products.length))
    ∧ ((low_confidence_partition all_results detected mr).1
        = all_results.filter
            (fun p => product_matches_category p detected))
    ∧ (∀ p ∈ all_results, product_matches_category p detected = false →
        all_results.length ≤ mr →
        ∃ l, (low_confidence_partition all_results detected mr).2 = some l
          ∧ p ∈ l)
    ∧ (∀ l, (low_confidence_partition all_results detected mr).2 = some l
        → l.length ≤ mr) := by
  have hdet' : detected.isEmpty = false := by
    cases hx : detected.isEmpty with
    | false => rfl
    | true => exact absurd ((String.isEmpty_iff detected).mp hx) hdet
  have hps' : products.isEmpty = false := by simpa using hps
  refine ⟨?_, rfl, ?_, ?_⟩
  · unfold calculate_category_confidence
    rw [hdet', hps']
    rfl
  · intro p hp hm hlen
    set additional := all_results.filter
      (fun p => !product_matches_category p detected) with hadd
    have hpmem : p ∈ additional := by
      rw [hadd, List.mem_filter]
      exact ⟨hp, by simp [hm]⟩
    have hane : additional.isEmpty = false := by
      cases hx : additional.isEmpty with
      | false => rfl
      | true =>
        rw [List.isEmpty_eq_true] at hx
        rw [hx] at hpmem
        cases hpmem
    have htake : additional.take mr = additional := by
      refine List.take_of_length_le ?_
      exact le_trans (List.length_filter_le _ all_results) hlen
    refine ⟨additional, ?_, htake ▸ hpmem⟩
    show (if additional.isEmpty then none else some (additional.take mr))
      = some additional
    rw [hane]
    simp [htake]
  · intro l hl
    set additional := all_results.filter
      (fun p => !product_matches_category p detected) with hadd
    have : (if additional.isEmpty then none
        else some (additional.take mr)) = some l := hl
    cases hx : additional.isEmpty with
    | true => rw [hx] at this; simp at this
    | false =>
      rw [hx] at this
      simp only [Bool.false_eq_true, if_false, Option.some.injEq] at this
      subst this
      exact List.length_take_le mr additional

/-- Claim C7 counterexample.  With three retrieved products of which one
matches the detected category, the code reports confidence `0.33`
(`round(1/3, 2)`), not the fraction `1/3` the claim states. -/
theorem c7_counterexample_rounding :
    (calculate_category_confidence
        [{ product_id := "1", sku := "", name := "", url_key := "",
           stock_status := "", categories := ["Gloves"] },
         { product_id := "2", sku := "", name := "", url_key := "",
           stock_status := "", categories := ["Pipettes"] },
         { product_id := "3", sku := "", name := "", url_key := "",
           stock_status := "", categories := ["Tubes"] }] "gloves"
      = mkRat 33 100)
    ∧ ([{ product_id := "1", sku := "", name := "", url_key := "",
           stock_status := "", categories := ["Gloves"] },
        { product_id := "2", sku := "", name := "", url_key := "",
           stock_status := "", categories := ["Pipettes"] },
        { product_id := "3", sku := "", name := "", url_key := "",
           stock_status := "", categories := ["Tubes"] }]
        : List Product).countP
          (fun p => product_matches_category p "gloves") = 1
    ∧ mkRat 33 100 ≠ mkRat 1 3 := by
  exact ⟨by decide, by decide, by decide⟩

/-- Claim C7 witness: the amended statement at one matching product and a
two-element additional search. -/
theorem c7_witness :
    ("Gloves" ≠ "")
    ∧ ([{ product_id := "1", sku := "", name := "", url_key := "",
          stock_status := "", categories := ["Gloves"] }]
        : List Product) ≠ []
    ∧ calculate_category_confidence
        [{ product_id := "1", sku := "", name := "", url_key := "",
           stock_status := "", categories := ["Gloves"] }] "Gloves"
      = roundTo2 (mkRat
          (([{ product_id := "1", sku := "", name := "", url_key := "",
               stock_status := "", categories := ["Gloves"] }]
             : List Product).countP
            (fun p => product_matches_category p "Gloves")) 1) :=
  ⟨by decide, by decide,
   (c7_confidence_and_partition
     [{ product_id := "1", sku := "", name := "", url_key := "",
        stock_status := "", categories := ["Gloves"] }]
     [] "Gloves" 5 (by decide) (by decide)).1⟩

end NLSearch

